import Mathlib

/-!
# cleanjs lexer: `src/lex.js` and the driver loop of `main.js`

A shallow embedding of the two closures of `src/lex.js`:

* `InputStream(input)`: the character cursor (`_input`, `_pos`, `_line`, `_col`);
* `TokenStream(input_stream)`: the token classifier with its one-token slot `_current`.

A JavaScript string is a list of characters, one per UTF-16 code unit; the empty string
returned by `charAt` past the end of the input is `none`.  A JavaScript exception is the
`raise` case of `Outcome`, and it carries the state the mutable closures are left in.
-/

namespace Lex

/-! ## The character cursor -/

/-- The closure variables of `InputStream(input)`: `_input`, `_pos`, `_line`, `_col`. -/
structure InputStream where
  input : List Char
  pos : Nat
  line : Nat
  col : Nat
deriving DecidableEq, Repr

/-- The call `InputStream(input)`: offset, line and column start at 0. -/
def InputStream.create (input : List Char) : InputStream :=
  { input := input, pos := 0, line := 0, col := 0 }

/-- The accessor `get_line()`. -/
def InputStream.get_line (s : InputStream) : Nat := s.line

/-- The accessor `get_col()`. -/
def InputStream.get_col (s : InputStream) : Nat := s.col

/-- The method `next()`: `ch = _input.charAt(_pos++)`; a newline bumps `_line` and resets
`_col`, every other value of `ch` (the empty string of end of input included) bumps `_col`. -/
def InputStream.next (s : InputStream) : Option Char × InputStream :=
  let ch := s.input[s.pos]?
  if ch = some '\n' then
    (ch, { s with pos := s.pos + 1, line := s.line + 1, col := 0 })
  else
    (ch, { s with pos := s.pos + 1, col := s.col + 1 })

/-- The method `lookup_next()`: `_input.charAt(_pos + 1)`, `null` when that is empty. -/
def InputStream.lookup_next (s : InputStream) : Option Char :=
  s.input[s.pos + 1]?

/-- The method `peek()`: `_input.charAt(_pos)`. -/
def InputStream.peek (s : InputStream) : Option Char :=
  s.input[s.pos]?

/-- The method `eof()`: `peek() == ''`. -/
def InputStream.eof (s : InputStream) : Bool :=
  s.peek.isNone

/-- What a call can throw: the `Error` built by `throwerr`, whose text is
`[line:col]msg`, and the `TypeError` of assigning a property of `null`. -/
inductive JsError where
  | lexical (line col : Nat) (msg : List Char)
  | type_error
deriving DecidableEq, Repr

/-- The text of the thrown error: the template string of `throwerr` for a lexical error;
the wording of the engine's `TypeError` is not modelled. -/
def JsError.text : JsError → Option (List Char)
  | .lexical line col msg =>
    some ("[".toList ++ (Nat.repr line).toList ++ ":".toList ++ (Nat.repr col).toList ++
      "]".toList ++ msg)
  | .type_error => none

/-- The method `throwerr(msg)`: the error carries the current line and column. -/
def InputStream.throwerr (s : InputStream) (msg : List Char) : JsError :=
  .lexical s.line s.col msg

/-- Result of a call on mutable state `σ`: a returned value or a thrown error, each with the
state after the call. -/
inductive Outcome (σ α : Type) where
  | ok (value : α) (state : σ)
  | raise (error : JsError) (state : σ)
deriving DecidableEq, Repr

/-! ## Tokens -/

/-- The `type` field of a token object. -/
inductive TokenType where
  | punc | num | string | es6_string | keyword | iden | op
deriving DecidableEq, Repr

/-- The number denoted by a digit run with at most one `.`: `mantissa / 10 ^ scale`.
`parseFloat` rounds it to a binary64 float; the rounding is not part of the model. -/
structure Decimal where
  mantissa : Nat
  scale : Nat
deriving DecidableEq, Repr

/-- The `value` field of a token object: a number for `num`, a string for the rest. -/
inductive Value where
  | str (text : List Char)
  | num (number : Decimal)
deriving DecidableEq, Repr

/-- The object `create_info()` returns. -/
structure Info where
  line : Nat
  col : Nat
deriving DecidableEq, Repr

/-- The object literal `{ type, value }` the `read_*` functions return. -/
structure RawToken where
  type : TokenType
  value : Value
deriving DecidableEq, Repr

/-- A token as `read_next` returns it: `info` has been assigned. -/
structure Token where
  type : TokenType
  value : Value
  info : Info
deriving DecidableEq, Repr

/-! ## The token classifier -/

/-- The closure variables of `TokenStream(input_stream)`: the cursor and `_current`. -/
structure TokenStream where
  input_stream : InputStream
  current : Option Token
deriving DecidableEq, Repr

/-- The call `TokenStream(input_stream)`: `_current = null`. -/
def TokenStream.create (input_stream : InputStream) : TokenStream :=
  { input_stream := input_stream, current := none }

/-- The array `_keywords`. -/
def keywords : List (List Char) :=
  ["if".toList, "return".toList, "else".toList, "function".toList, "var".toList,
   "null".toList, "true".toList, "false".toList, "while".toList, "for".toList]

/-- The function `create_info()`. -/
def create_info (s : InputStream) : Info :=
  { line := s.get_line, col := s.get_col }

/-- The function `is_whitespace(ch)`: `" \t\n".indexOf(ch) >= 0`, on a character. -/
def is_whitespace (ch : Char) : Bool :=
  [' ', '\t', '\n'].contains ch

/-- The loop of `read_while(cond_func)`, started with `buffer`.  The callback may read the
cursor (`is_not_matching` calls `lookup_next`) and may keep a variable of its own
(`has_dot` in `read_number`), which is the `σ` component.  One unit of fuel is one
iteration; `read_while` gives it one unit per character left, and with none left `eof()`
holds and the loop ends. -/
def read_while_loop {σ : Type} (cond_func : σ → InputStream → Char → Bool × σ) :
    Nat → σ → InputStream → List Char → List Char × σ × InputStream
  | 0, st, s, buffer => (buffer, st, s)
  | fuel + 1, st, s, buffer =>
    match s.peek with
    | none => (buffer, st, s)
    | some ch =>
      match cond_func st s ch with
      | (true, st1) => read_while_loop cond_func fuel st1 s.next.2 (buffer ++ s.next.1.toList)
      | (false, st1) => (buffer, st1, s)

/-- The function `read_while(cond_func)`. -/
def read_while {σ : Type} (cond_func : σ → InputStream → Char → Bool × σ) (st : σ)
    (s : InputStream) : List Char × σ × InputStream :=
  read_while_loop cond_func (s.input.length - s.pos) st s []

/-- A callback that reads neither the cursor nor a variable of its own. -/
def char_cond (p : Char → Bool) : Unit → InputStream → Char → Bool × Unit :=
  fun st _ ch => (p ch, st)

/-- The callback `is_not_next_line` of `skip_line_comment`. -/
def is_not_next_line (ch : Char) : Bool :=
  ch != '\n'

/-- The function `skip_line_comment()`. -/
def skip_line_comment (s : InputStream) : InputStream :=
  (read_while (char_cond is_not_next_line) () s).2.2.next.2

/-- The callback `is_not_matching` of `skip_block_comment`. -/
def is_not_matching (s : InputStream) (ch : Char) : Bool :=
  !(ch == '*' && s.lookup_next == some '/')

/-- The function `skip_block_comment()`. -/
def skip_block_comment (s : InputStream) : InputStream :=
  (read_while (fun st cur ch => (is_not_matching cur ch, st)) () s).2.2.next.2.next.2

/-- The function `skip_comment()`. -/
def skip_comment (s : InputStream) : InputStream :=
  let s1 := s.next.2
  if s1.peek = some '/' then skip_line_comment s1 else skip_block_comment s1

/-- The function `is_op_char(ch)`. -/
def is_op_char (ch : Char) : Bool :=
  ['+', '-', '*', '/', '=', '&', '|', '<', '>', '!', '.'].contains ch

/-- The function `is_id_start(ch)`: `RegExp('[a-z_]', 'i').test(ch)`.  With the `i` flag
and no `u` flag the class matches the ASCII letters of both cases and the underscore, and
no character outside ASCII. -/
def is_id_start (ch : Char) : Bool :=
  ('a' ≤ ch && ch ≤ 'z') || ('A' ≤ ch && ch ≤ 'Z') || ch == '_'

/-- The function `is_string_start(ch)`: the double quote, the single quote, the backtick. -/
def is_string_start (ch : Char) : Bool :=
  ch == Char.ofNat 34 || ch == Char.ofNat 39 || ch == Char.ofNat 96

/-- The function `is_number_start(ch)`. -/
def is_number_start (ch : Char) : Bool :=
  ['0', '1', '2', '3', '4', '5', '6', '7', '8', '9'].contains ch

/-- The function `is_comment_start(ch)`. -/
def is_comment_start (s : InputStream) (ch : Char) : Bool :=
  let next_ch := s.lookup_next
  ch == '/' && (next_ch == some '/' || next_ch == some '*')

/-- The function `is_punc(ch)`: `",;()\x7b\x7d[]:".indexOf(ch) >= 0`. -/
def is_punc (ch : Char) : Bool :=
  [',', ';', '(', ')', Char.ofNat 123, Char.ofNat 125, '[', ']', ':'].contains ch

/-- The function `is_keywords(str)`. -/
def is_keywords (str : List Char) : Bool :=
  keywords.contains str

/-- The function `is_id(ch)`. -/
def is_id (ch : Char) : Bool :=
  is_id_start ch || ['0', '1', '2', '3', '4', '5', '6', '7', '8', '9'].contains ch

/-- The function `read_op()`. -/
def read_op (s : InputStream) : RawToken × InputStream :=
  let r := read_while (char_cond is_op_char) () s
  ({ type := .op, value := .str r.1 }, r.2.2)

/-- The callback of `read_number`, with its variable `has_dot`. -/
def number_cond (has_dot : Bool) (_s : InputStream) (ch : Char) : Bool × Bool :=
  if ch == '.' then
    if has_dot then (false, has_dot) else (true, true)
  else (is_number_start ch, has_dot)

/-- The digits of a text as a number, and how many there are, up to the first character
that is not a digit. -/
def digit_run : List Char → Nat → Nat → Nat × Nat × List Char
  | [], acc, len => (acc, len, [])
  | ch :: rest, acc, len =>
    if is_number_start ch then digit_run rest (10 * acc + (ch.toNat - 48)) (len + 1)
    else (acc, len, ch :: rest)

/-- The call `parseFloat(number)` on the texts `read_number` builds: a digit run, then
possibly a `.` and a second digit run. -/
def parseFloat (number : List Char) : Decimal :=
  match digit_run number 0 0 with
  | (whole, _, '.' :: rest) =>
    let frac := digit_run rest whole 0
    { mantissa := frac.1, scale := frac.2.1 }
  | (whole, _, _) => { mantissa := whole, scale := 0 }

/-- The function `read_number()`. -/
def read_number (s : InputStream) : RawToken × InputStream :=
  let r := read_while number_cond false s
  ({ type := .num, value := .num (parseFloat r.1) }, r.2.2)

/-- The loop of `read_escaped(end)` after the opening quote has been consumed, with the
variables `escaped` and `str`.  One unit of fuel is one iteration; `read_escaped` gives it
one unit per character left. -/
def read_escaped_loop (end_ch : Option Char) : Nat → Bool → List Char → InputStream →
    List Char × InputStream
  | 0, _, str, s => (str, s)
  | fuel + 1, escaped, str, s =>
    if s.eof then (str, s)
    else
      let ch := s.next.1
      let s1 := s.next.2
      if escaped then
        if ch = some 'n' then read_escaped_loop end_ch fuel false (str ++ ['\n']) s1
        else read_escaped_loop end_ch fuel false (str ++ ch.toList) s1
      else if ch = some '\\' then read_escaped_loop end_ch fuel true str s1
      else if ch = end_ch then (str, s1)
      else read_escaped_loop end_ch fuel false (str ++ ch.toList) s1

/-- The function `read_escaped(end)`. -/
def read_escaped (end_ch : Option Char) (s : InputStream) : List Char × InputStream :=
  let s1 := s.next.2
  read_escaped_loop end_ch (s1.input.length - s1.pos) false [] s1

/-- The function `read_string()`. -/
def read_string (s : InputStream) : RawToken × InputStream :=
  let begin := s.peek
  let type := if begin = some (Char.ofNat 96) then TokenType.es6_string else TokenType.string
  let r := read_escaped begin s
  ({ type := type, value := .str r.1 }, r.2)

/-- The function `read_id_or_keyword()`: the non-keyword branch calls `read_while(is_id)`
a second time, on the cursor the first call left. -/
def read_id_or_keyword (s : InputStream) : RawToken × InputStream :=
  let r := read_while (char_cond is_id) () s
  let str := r.1
  if is_keywords str then
    ({ type := .keyword, value := .str str }, r.2.2)
  else
    let r2 := read_while (char_cond is_id) () r.2.2
    ({ type := .iden, value := .str r2.1 }, r2.2.2)

/-- The function `read_punc()`. -/
def read_punc (s : InputStream) : RawToken × InputStream :=
  ({ type := .punc, value := .str s.next.1.toList }, s.next.2)

/-- The statement `result.info = info` on what a `read_*` function returned. -/
def RawToken.with_info (r : RawToken) (info : Info) : Token :=
  { type := r.type, value := r.value, info := info }

/-- The function `read_next()`, one unit of fuel per nested call (`none`: out of fuel).
After a comment the result of the nested call gets `info` assigned again, and when that
result is `null` the assignment throws a `TypeError`. -/
def read_next_fuel : Nat → InputStream → Option (Outcome InputStream (Option Token))
  | 0, _ => none
  | fuel + 1, s =>
    let s1 := (read_while (char_cond is_whitespace) () s).2.2
    let info := create_info s1
    match s1.peek with
    | none => some (.ok none s1)
    | some ch =>
      if is_comment_start s1 ch then
        match read_next_fuel fuel (skip_comment s1) with
        | none => none
        | some (.raise e s2) => some (.raise e s2)
        | some (.ok none s2) => some (.raise .type_error s2)
        | some (.ok (some result) s2) => some (.ok (some { result with info := info }) s2)
      else if is_op_char ch then
        some (.ok (some ((read_op s1).1.with_info info)) (read_op s1).2)
      else if is_string_start ch then
        some (.ok (some ((read_string s1).1.with_info info)) (read_string s1).2)
      else if is_id_start ch then
        some (.ok (some ((read_id_or_keyword s1).1.with_info info)) (read_id_or_keyword s1).2)
      else if is_punc ch then
        some (.ok (some ((read_punc s1).1.with_info info)) (read_punc s1).2)
      else if is_number_start ch then
        some (.ok (some ((read_number s1).1.with_info info)) (read_number s1).2)
      else
        some (.raise (s1.throwerr ("Can't handle character: ".toList ++ [ch])) s1)

/-- The function `read_next()`: a nested call follows a comment, which takes two
characters or more, so one unit of fuel per character of the input is enough. -/
def read_next (s : InputStream) : Option (Outcome InputStream (Option Token)) :=
  read_next_fuel (s.input.length + 1) s

/-- The method `next()` of the token stream: `current = _current; _current = read_next();
return current`.  When `read_next` throws, `_current` keeps its value. -/
def TokenStream.next (ts : TokenStream) : Option (Outcome TokenStream (Option Token)) :=
  match read_next ts.input_stream with
  | none => none
  | some (.raise e s) => some (.raise e { ts with input_stream := s })
  | some (.ok result s) => some (.ok ts.current { input_stream := s, current := result })

/-- The method `peek()` of the token stream. -/
def TokenStream.peek (ts : TokenStream) : Option (Outcome TokenStream (Option Token)) :=
  match ts.current with
  | some tok => some (.ok (some tok) ts)
  | none =>
    match read_next ts.input_stream with
    | none => none
    | some (.raise e s) => some (.raise e { ts with input_stream := s })
    | some (.ok result s) => some (.ok result { input_stream := s, current := result })

/-- The method `eof()` of the token stream: `peek() == null`. -/
def TokenStream.eof (ts : TokenStream) : Option (Outcome TokenStream Bool) :=
  match ts.peek with
  | none => none
  | some (.raise e ts1) => some (.raise e ts1)
  | some (.ok result ts1) => some (.ok result.isNone ts1)

/-! ## Callers -/

/-- The loop of `main.js`, `while(!ts.eof()) console.log(ts.next())`, one unit of fuel per
iteration (`none`: out of fuel).  The list is what has been logged so far. -/
def main_loop : Nat → TokenStream → List (Option Token) →
    Option (Outcome (TokenStream × List (Option Token)) Unit)
  | 0, _, _ => none
  | fuel + 1, ts, logged =>
    match ts.eof with
    | none => none
    | some (.raise e ts1) => some (.raise e (ts1, logged))
    | some (.ok true ts1) => some (.ok () (ts1, logged))
    | some (.ok false ts1) =>
      match ts1.next with
      | none => none
      | some (.raise e ts2) => some (.raise e (ts2, logged))
      | some (.ok tok ts2) => main_loop fuel ts2 (logged ++ [tok])

/-- Successive calls of `read_next()` up to the first `null`, one unit of fuel per call
(`none`: out of fuel); the value is the list of tokens returned. -/
def read_all : Nat → InputStream → Option (Outcome InputStream (List Token))
  | 0, _ => none
  | fuel + 1, s =>
    match read_next s with
    | none => none
    | some (.raise e s1) => some (.raise e s1)
    | some (.ok none s1) => some (.ok [] s1)
    | some (.ok (some tok) s1) =>
      match read_all fuel s1 with
      | none => none
      | some (.raise e s2) => some (.raise e s2)
      | some (.ok toks s2) => some (.ok (tok :: toks) s2)

/-- The tokens that at most `n` successive calls of `read_next()` return, up to the first
call that returns `null` or throws. -/
def read_tokens : Nat → InputStream → List Token
  | 0, _ => []
  | n + 1, s =>
    match read_next s with
    | some (.ok (some tok) s1) => tok :: read_tokens n s1
    | _ => []

/-- Calls of the token stream's `next()` up to the first one that returns `null`, one unit
of fuel per call (`none`: out of fuel). -/
def next_until_null : Nat → TokenStream → Option (Outcome TokenStream Unit)
  | 0, _ => none
  | fuel + 1, ts =>
    match ts.next with
    | none => none
    | some (.raise e ts1) => some (.raise e ts1)
    | some (.ok none ts1) => some (.ok () ts1)
    | some (.ok (some _) ts1) => next_until_null fuel ts1

/-- The token stream's `peek()` called `n` times in a row; the value is the list of what
the calls returned. -/
def peek_calls : Nat → TokenStream → Option (Outcome TokenStream (List (Option Token)))
  | 0, ts => some (.ok [] ts)
  | n + 1, ts =>
    match ts.peek with
    | none => none
    | some (.raise e ts1) => some (.raise e ts1)
    | some (.ok result ts1) =>
      match peek_calls n ts1 with
      | none => none
      | some (.raise e ts2) => some (.raise e ts2)
      | some (.ok results ts2) => some (.ok (result :: results) ts2)

/-! ## Vocabulary of the statements -/

/-- The cursor after `k` calls of `next()`. -/
def InputStream.advance (k : Nat) (s : InputStream) : InputStream :=
  (fun t => (InputStream.next t).2)^[k] s

/-- An identifier-shaped text: an ASCII letter or underscore, then ASCII letters, digits or
underscores. -/
def identifier_shaped : List Char → Bool
  | [] => false
  | c :: rest => (c.isAlpha || c == '_') && rest.all (fun d => d.isAlphanum || d == '_')

/-- The line of the character that follows the text `pre`: the number of newlines in
`pre`. -/
def line_of (pre : List Char) : Nat :=
  pre.count '\n'

/-- The column of the character that follows the text `pre`: the number of characters of
`pre` after its last newline, all of them if it has none. -/
def col_of (pre : List Char) : Nat :=
  (pre.reverse.takeWhile (fun c => c != '\n')).length

/-- The order of positions: by line, then by column. -/
def Info.le (a b : Info) : Bool :=
  a.line < b.line || (a.line == b.line && a.col ≤ b.col)

/-- The positions of a token list never go back. -/
def positions_sorted : List Token → Bool
  | [] => true
  | [_] => true
  | t1 :: t2 :: rest => t1.info.le t2.info && positions_sorted (t2 :: rest)

/-- The longest run of characters that are digits or the first `.`; `seen_dot` tells that a
`.` came before. -/
def number_run : Bool → List Char → List Char
  | _, [] => []
  | seen_dot, c :: rest =>
    if c.isDigit then c :: number_run seen_dot rest
    else if c == '.' && !seen_dot then c :: number_run true rest
    else []

/-- The three quote characters: double quote, single quote, backtick. -/
def quotes : List Char :=
  [Char.ofNat 34, Char.ofNat 39, Char.ofNat 96]

/-- The text with its backslash escapes decoded: a backslash and `n` give a newline, a
backslash and another character give that character, a backslash that ends the text gives
nothing. -/
def unescape : List Char → List Char
  | [] => []
  | c :: rest =>
    if c = '\\' then
      match rest with
      | [] => []
      | d :: rest1 => (if d = 'n' then '\n' else d) :: unescape rest1
    else c :: unescape rest

/-- The text has no quote `q` outside a backslash escape. -/
def no_bare_quote (q : Char) : List Char → Bool
  | [] => true
  | c :: rest =>
    if c = '\\' then
      match rest with
      | [] => true
      | _ :: rest1 => no_bare_quote q rest1
    else c != q && no_bare_quote q rest

/-- The text ends with a backslash that starts an escape, so that a quote put after the text
would be escaped. -/
def ends_in_escape : List Char → Bool
  | [] => false
  | c :: rest =>
    if c = '\\' then
      match rest with
      | [] => true
      | _ :: rest1 => ends_in_escape rest1
    else ends_in_escape rest

/-- A text of spaces, tabs and newlines. -/
def blank (ws : List Char) : Bool :=
  ws.all (fun d => d == ' ' || d == '\t' || d == '\n')

/-- The text does not contain the two characters `*/` in a row. -/
def no_close : List Char → Bool
  | c :: d :: rest => !(c == '*' && d == '/') && no_close (d :: rest)
  | _ => true

/-- A text made of whitespace, line comments closed by their newline, and block comments
`/*` body `*/` whose body does not contain `*/` and does not begin with `/`. -/
inductive Leading : List Char → Prop where
  | nil : Leading []
  | blank (c : Char) (rest : List Char) :
      is_whitespace c = true → Leading rest → Leading (c :: rest)
  | line (body rest : List Char) :
      '\n' ∉ body → Leading rest → Leading ('/' :: '/' :: (body ++ '\n' :: rest))
  | block (body rest : List Char) :
      no_close body = true → body.head? ≠ some '/' → Leading rest →
      Leading ('/' :: '*' :: (body ++ '*' :: '/' :: rest))

/-- The cursor `b` is the cursor `a` moved on: the same input, the offset and the position
not before those of `a`. -/
def InputStream.reaches (a b : InputStream) : Prop :=
  b.input = a.input ∧ a.pos ≤ b.pos ∧ (create_info a).le (create_info b) = true

/-! ## The cursor and `read_while` -/

theorem InputStream.peek_eq_head (s : InputStream) : s.peek = (s.input.drop s.pos).head? := by
  simp [InputStream.peek, List.head?_drop]

theorem InputStream.next_fst (s : InputStream) : s.next.1 = s.peek := by
  simp only [InputStream.next, InputStream.peek]
  split <;> rfl

theorem InputStream.next_input (s : InputStream) : s.next.2.input = s.input := by
  simp only [InputStream.next]
  split <;> rfl

theorem InputStream.next_pos (s : InputStream) : s.next.2.pos = s.pos + 1 := by
  simp only [InputStream.next]
  split <;> rfl

theorem InputStream.advance_input (k : Nat) (s : InputStream) :
    (s.advance k).input = s.input := by
  induction k generalizing s with
  | zero => rfl
  | succ k ih =>
    simp only [InputStream.advance, Function.iterate_succ_apply] at ih ⊢
    rw [ih, InputStream.next_input]

theorem InputStream.advance_pos (k : Nat) (s : InputStream) :
    (s.advance k).pos = s.pos + k := by
  induction k generalizing s with
  | zero => rfl
  | succ k ih =>
    simp only [InputStream.advance, Function.iterate_succ_apply] at ih ⊢
    rw [ih, InputStream.next_pos]; omega

theorem drop_succ_of_drop_cons {l : List Char} {k : Nat} {c : Char} {t : List Char}
    (h : l.drop k = c :: t) : l.drop (k + 1) = t := by
  have : (l.drop k).drop 1 = l.drop (k + 1) := by
    rw [List.drop_drop, Nat.add_comm]
  rw [← this, h]; rfl

/-- With a callback that only looks at the character, the loop of `read_while` takes the
run `a` of characters that satisfy it and stops before `b`. -/
theorem read_while_loop_char_cond (p : Char → Bool) :
    ∀ (a b : List Char) (s : InputStream) (buffer : List Char) (fuel : Nat),
      s.input.drop s.pos = a ++ b → (∀ c ∈ a, p c = true) →
      (∀ c, b.head? = some c → p c = false) → a.length ≤ fuel →
      read_while_loop (char_cond p) fuel () s buffer = (buffer ++ a, (), s.advance a.length) := by
  intro a
  induction a with
  | nil =>
    intro b s buffer fuel hdrop _ hb _
    cases fuel with
    | zero => simp [read_while_loop, InputStream.advance]
    | succ n =>
      have hpeek : s.peek = b.head? := by rw [InputStream.peek_eq_head, hdrop]; rfl
      unfold read_while_loop
      cases hh : b.head? with
      | none => simp [hpeek, hh, InputStream.advance]
      | some c =>
        have := hb c hh
        simp [hpeek, hh, char_cond, this, InputStream.advance]
  | cons c a ih =>
    intro b s buffer fuel hdrop ha hb hlen
    cases fuel with
    | zero => simp at hlen
    | succ n =>
      have hpeek : s.peek = some c := by rw [InputStream.peek_eq_head, hdrop]; rfl
      have hc : p c = true := ha c (List.mem_cons_self _ _)
      have hdrop1 : s.next.2.input.drop s.next.2.pos = a ++ b := by
        rw [InputStream.next_input, InputStream.next_pos]
        exact drop_succ_of_drop_cons hdrop
      have hrec := ih b s.next.2 (buffer ++ [c]) n hdrop1
        (fun x hx => ha x (List.mem_cons_of_mem _ hx)) hb (by simpa using hlen)
      unfold read_while_loop
      simp only [hpeek, char_cond, hc, InputStream.next_fst, Option.toList]
      rw [hrec]
      simp [InputStream.advance, Function.iterate_succ_apply]

/-- The function `read_while` on a cursor that stands before the run `a` followed by `b`. -/
theorem read_while_char_cond (p : Char → Bool) (a b : List Char) (s : InputStream)
    (hdrop : s.input.drop s.pos = a ++ b) (ha : ∀ c ∈ a, p c = true)
    (hb : ∀ c, b.head? = some c → p c = false) :
    read_while (char_cond p) () s = (a, (), s.advance a.length) := by
  have hlen : a.length ≤ s.input.length - s.pos := by
    have := congrArg List.length hdrop
    simp at this; omega
  have := read_while_loop_char_cond p a b s [] _ hdrop ha hb hlen
  simpa [read_while] using this

/-! ## Character classes and `read_next` on identifier-shaped text -/

theorem is_number_start_of_isDigit (c : Char) (h : c.isDigit = true) :
    is_number_start c = true := by
  have h1 : 48 ≤ c.toNat ∧ c.toNat ≤ 57 := by
    simp only [Char.isDigit, Bool.and_eq_true, decide_eq_true_eq, ge_iff_le] at h
    exact ⟨h.1, h.2⟩
  have hc : c = Char.ofNat c.toNat := (Char.ofNat_toNat c).symm
  obtain ⟨h48, h57⟩ := h1
  generalize c.toNat = n at hc h48 h57
  subst hc
  interval_cases n <;> decide

theorem is_id_start_eq (c : Char) : is_id_start c = (c.isAlpha || c == '_') := by
  simp only [is_id_start, Char.isAlpha, Char.isUpper, Char.isLower]
  rw [Bool.or_comm (c.val ≥ 65 && c.val ≤ 90 : Bool)]
  rfl

theorem not_is_whitespace_of_is_id_start (c : Char) (h : is_id_start c = true) :
    is_whitespace c = false := by
  cases hc : is_whitespace c with
  | false => rfl
  | true =>
    exfalso
    simp only [is_whitespace, List.contains, List.elem_eq_mem, List.mem_cons, List.mem_singleton,
      decide_eq_true_eq, List.not_mem_nil, or_false] at hc
    rcases hc with rfl | rfl | rfl <;> revert h <;> decide

theorem not_is_op_char_of_is_id_start (c : Char) (h : is_id_start c = true) :
    is_op_char c = false := by
  cases hc : is_op_char c with
  | false => rfl
  | true =>
    exfalso
    simp only [is_op_char, List.contains, List.elem_eq_mem, List.mem_cons, List.mem_singleton,
      decide_eq_true_eq, List.not_mem_nil, or_false] at hc
    rcases hc with rfl | rfl | rfl | rfl | rfl | rfl | rfl | rfl | rfl | rfl | rfl <;>
      revert h <;> decide

theorem not_is_string_start_of_is_id_start (c : Char) (h : is_id_start c = true) :
    is_string_start c = false := by
  cases hc : is_string_start c with
  | false => rfl
  | true =>
    exfalso
    simp only [is_string_start, Bool.or_eq_true, beq_iff_eq] at hc
    rcases hc with (rfl | rfl) | rfl <;> revert h <;> decide

theorem not_is_comment_start_of_is_id_start (s : InputStream) (c : Char)
    (h : is_id_start c = true) : is_comment_start s c = false := by
  have hc : c ≠ '/' := by
    rintro rfl
    revert h; decide
  simp [is_comment_start, hc]

theorem is_id_of_identifier_shaped (c : Char) (rest : List Char)
    (hw : identifier_shaped (c :: rest) = true) :
    is_id_start c = true ∧ ∀ d ∈ c :: rest, is_id d = true := by
  simp only [identifier_shaped, Bool.and_eq_true, List.all_eq_true] at hw
  have hstart : is_id_start c = true := by rw [is_id_start_eq]; exact hw.1
  refine ⟨hstart, ?_⟩
  intro d hd
  rcases List.mem_cons.1 hd with rfl | hd
  · simp [is_id, hstart]
  · have h := hw.2 d hd
    simp only [Char.isAlphanum, Bool.or_eq_true] at h
    rcases h with (h | h) | h
    · simp [is_id, is_id_start_eq, h]
    · have := is_number_start_of_isDigit d h
      simp only [is_number_start] at this
      simp only [is_id, this, Bool.or_true]
    · simp [is_id, is_id_start_eq, h]

/-- One nested call of `read_next`, unfolded. -/
theorem read_next_fuel_succ (fuel : Nat) (s : InputStream) :
    read_next_fuel (fuel + 1) s =
      (let s1 := (read_while (char_cond is_whitespace) () s).2.2
       let info := create_info s1
       match s1.peek with
       | none => some (.ok none s1)
       | some ch =>
         if is_comment_start s1 ch then
           match read_next_fuel fuel (skip_comment s1) with
           | none => none
           | some (.raise e s2) => some (.raise e s2)
           | some (.ok none s2) => some (.raise .type_error s2)
           | some (.ok (some result) s2) => some (.ok (some { result with info := info }) s2)
         else if is_op_char ch then
           some (.ok (some ((read_op s1).1.with_info info)) (read_op s1).2)
         else if is_string_start ch then
           some (.ok (some ((read_string s1).1.with_info info)) (read_string s1).2)
         else if is_id_start ch then
           some (.ok (some ((read_id_or_keyword s1).1.with_info info)) (read_id_or_keyword s1).2)
         else if is_punc ch then
           some (.ok (some ((read_punc s1).1.with_info info)) (read_punc s1).2)
         else if is_number_start ch then
           some (.ok (some ((read_number s1).1.with_info info)) (read_number s1).2)
         else
           some (.raise (s1.throwerr ("Can't handle character: ".toList ++ [ch])) s1)) := rfl

/-- At end of input `read_next` returns `null` and leaves the cursor where it is. -/
theorem read_next_at_eof (s : InputStream) (h : s.peek = none) :
    read_next s = some (.ok none s) := by
  have hws : read_while (char_cond is_whitespace) () s = ([], (), s) := by
    have : read_while (char_cond is_whitespace) () s
        = read_while_loop (char_cond is_whitespace) (s.input.length - s.pos) () s [] := rfl
    rw [this]
    cases s.input.length - s.pos <;> simp [read_while_loop, h]
  rw [read_next, read_next_fuel_succ]
  simp only [hws, h]

/-- The outcome of `read_next` on an identifier-shaped source `w`. -/
theorem read_next_identifier_shaped (w : List Char) (hw : identifier_shaped w = true) :
    read_next (InputStream.create w) =
      some (.ok (some { type := if is_keywords w then .keyword else .iden,
                        value := .str (if is_keywords w then w else []),
                        info := { line := 0, col := 0 } })
        ((InputStream.create w).advance w.length)) := by
  cases w with
  | nil => simp [identifier_shaped] at hw
  | cons c rest =>
    obtain ⟨hstart, hall⟩ := is_id_of_identifier_shaped c rest hw
    have hdrop : (InputStream.create (c :: rest)).input.drop (InputStream.create (c :: rest)).pos
        = [] ++ (c :: rest) := rfl
    have hws := read_while_char_cond is_whitespace [] (c :: rest) _ hdrop (by simp)
      (by
        intro d hd
        simp only [List.head?_cons, Option.some.injEq] at hd
        subst hd
        exact not_is_whitespace_of_is_id_start _ hstart)
    have hdrop2 : (InputStream.create (c :: rest)).input.drop (InputStream.create (c :: rest)).pos
        = (c :: rest) ++ [] := by simp [InputStream.create]
    have hid := read_while_char_cond is_id (c :: rest) [] _ hdrop2 hall (by simp)
    have hdrop3 : ((InputStream.create (c :: rest)).advance (c :: rest).length).input.drop
        ((InputStream.create (c :: rest)).advance (c :: rest).length).pos = [] ++ [] := by
      rw [InputStream.advance_input, InputStream.advance_pos]
      simp [InputStream.create]
    have hid2 := read_while_char_cond is_id [] [] _ hdrop3 (by simp) (by simp)
    have hpeek : (InputStream.create (c :: rest)).peek = some c := by
      simp [InputStream.peek, InputStream.create]
    rw [read_next, read_next_fuel_succ]
    simp only [hws, List.length_nil]
    simp only [InputStream.advance, Function.iterate_zero, id_eq, hpeek,
      not_is_comment_start_of_is_id_start _ _ hstart, not_is_op_char_of_is_id_start _ hstart,
      not_is_string_start_of_is_id_start _ hstart, hstart, Bool.false_eq_true, if_false, if_true]
    simp only [read_id_or_keyword, hid]
    by_cases hk : is_keywords (c :: rest) = true
    · simp [hk, RawToken.with_info, create_info, InputStream.create, InputStream.get_line,
        InputStream.get_col, InputStream.advance]
    · simp only [hk, Bool.false_eq_true, if_false, hid2]
      simp [RawToken.with_info, create_info, InputStream.create, InputStream.get_line,
        InputStream.get_col, InputStream.advance]

/-! ## Fuel -/

theorem read_while_loop_input {σ : Type} (cond_func : σ → InputStream → Char → Bool × σ) :
    ∀ (fuel : Nat) (st : σ) (s : InputStream) (buffer : List Char),
      (read_while_loop cond_func fuel st s buffer).2.2.input = s.input ∧
      s.pos ≤ (read_while_loop cond_func fuel st s buffer).2.2.pos := by
  intro fuel
  induction fuel with
  | zero => intro st s buffer; simp [read_while_loop]
  | succ n ih =>
    intro st s buffer
    unfold read_while_loop
    cases hp : s.peek with
    | none => simp
    | some ch =>
      simp only
      rcases hc : cond_func st s ch with ⟨b, st1⟩
      cases b with
      | false => simp
      | true =>
        simp only
        have := ih st1 s.next.2 (buffer ++ s.next.1.toList)
        rw [InputStream.next_input, InputStream.next_pos] at this
        exact ⟨this.1, by omega⟩

theorem read_while_input {σ : Type} (cond_func : σ → InputStream → Char → Bool × σ) (st : σ)
    (s : InputStream) :
    (read_while cond_func st s).2.2.input = s.input ∧ s.pos ≤ (read_while cond_func st s).2.2.pos :=
  read_while_loop_input cond_func _ st s []

theorem skip_comment_input (s : InputStream) :
    (skip_comment s).input = s.input ∧ s.pos + 2 ≤ (skip_comment s).pos := by
  simp only [skip_comment]
  split
  · simp only [skip_line_comment]
    have h := read_while_input (char_cond is_not_next_line) () s.next.2
    rw [InputStream.next_input, InputStream.next_pos] at h
    rw [InputStream.next_input, InputStream.next_pos]
    exact ⟨h.1, by omega⟩
  · simp only [skip_block_comment]
    have h := read_while_input (fun st cur ch => (is_not_matching cur ch, st)) () s.next.2
    rw [InputStream.next_input, InputStream.next_pos] at h
    rw [InputStream.next_input, InputStream.next_pos, InputStream.next_input, InputStream.next_pos]
    exact ⟨h.1, by omega⟩

theorem InputStream.pos_lt_of_peek {s : InputStream} {ch : Char} (h : s.peek = some ch) :
    s.pos < s.input.length := by
  simp only [InputStream.peek] at h
  exact (List.getElem?_eq_some.1 h).1

/-- With one unit of fuel per character left, and one more, `read_next` does not run out. -/
theorem read_next_fuel_ne_none :
    ∀ (fuel : Nat) (s : InputStream), 0 < fuel → s.input.length < fuel + s.pos →
      read_next_fuel fuel s ≠ none := by
  intro fuel
  induction fuel with
  | zero => intro s h0; exact absurd h0 (Nat.lt_irrefl 0)
  | succ n ih =>
    intro s _ h
    rw [read_next_fuel_succ]
    have hws := read_while_input (char_cond is_whitespace) () s
    generalize (read_while (char_cond is_whitespace) () s).2.2 = s1 at hws ⊢
    simp only
    cases hp : s1.peek with
    | none => simp
    | some ch =>
      simp only
      split
      · have hsk := skip_comment_input s1
        have hlt := InputStream.pos_lt_of_peek hp
        have := ih (skip_comment s1) (by rw [hws.1] at hlt; omega)
          (by rw [hsk.1, hws.1]; omega)
        revert this
        cases read_next_fuel n (skip_comment s1) with
        | none => simp
        | some r =>
          rcases r with ⟨_ | _, _⟩ | _ <;> simp
      · split_ifs <;> simp

/-- The function `read_next` returns or throws on every cursor: it never runs out of fuel. -/
theorem read_next_ne_none (s : InputStream) : read_next s ≠ none :=
  read_next_fuel_ne_none _ s (Nat.succ_pos _) (by omega)

/-- Fuel beyond one unit per character left does not change the loop of `read_while`: the
loop has ended at end of input at the latest. -/
theorem read_while_loop_fuel_succ {σ : Type} (cond_func : σ → InputStream → Char → Bool × σ) :
    ∀ (fuel : Nat) (st : σ) (s : InputStream) (buffer : List Char),
      s.input.length - s.pos ≤ fuel →
      read_while_loop cond_func (fuel + 1) st s buffer
        = read_while_loop cond_func fuel st s buffer := by
  intro fuel
  induction fuel with
  | zero =>
    intro st s buffer h
    have hp : s.peek = none := by
      simp only [InputStream.peek]
      exact List.getElem?_eq_none (by omega)
    simp [read_while_loop, hp]
  | succ n ih =>
    intro st s buffer h
    rw [read_while_loop]
    conv_rhs => rw [read_while_loop]
    cases hp : s.peek with
    | none => rfl
    | some ch =>
      simp only
      rcases hc : cond_func st s ch with ⟨b, st1⟩
      cases b with
      | false => rfl
      | true =>
        simp only
        apply ih
        rw [InputStream.next_input, InputStream.next_pos]
        omega

theorem read_while_loop_fuel {σ : Type} (cond_func : σ → InputStream → Char → Bool × σ)
    (st : σ) (s : InputStream) (buffer : List Char) (extra : Nat) :
    read_while_loop cond_func (s.input.length - s.pos + extra) st s buffer
      = read_while_loop cond_func (s.input.length - s.pos) st s buffer := by
  induction extra with
  | zero => rfl
  | succ k ih =>
    rw [← ih, ← Nat.add_assoc]
    exact read_while_loop_fuel_succ cond_func _ st s buffer (by omega)

/-- The loop equation of `read_while`: at end of input, or on a character the callback
rejects, it returns the buffer; otherwise it consumes the character and goes on. -/
theorem read_while_loop_eq {σ : Type} (cond_func : σ → InputStream → Char → Bool × σ)
    (st : σ) (s : InputStream) (buffer : List Char) :
    read_while_loop cond_func (s.input.length - s.pos) st s buffer =
      match s.peek with
      | none => (buffer, st, s)
      | some ch =>
        match cond_func st s ch with
        | (true, st1) =>
          read_while_loop cond_func (s.next.2.input.length - s.next.2.pos) st1 s.next.2
            (buffer ++ s.next.1.toList)
        | (false, st1) => (buffer, st1, s) := by
  cases hp : s.peek with
  | none =>
    cases s.input.length - s.pos <;> simp [read_while_loop, hp]
  | some ch =>
    have hlt := InputStream.pos_lt_of_peek hp
    obtain ⟨n, hn⟩ : ∃ n, s.input.length - s.pos = n + 1 := ⟨s.input.length - s.pos - 1, by omega⟩
    rw [hn, read_while_loop]
    simp only [hp]
    rcases hc : cond_func st s ch with ⟨b, st1⟩
    cases b with
    | false => rfl
    | true =>
      simp only
      rw [InputStream.next_input, InputStream.next_pos]
      have : s.input.length - (s.pos + 1) = n := by omega
      rw [this]

/-- More fuel does not change an outcome of `read_next`. -/
theorem read_next_fuel_mono :
    ∀ (fuel : Nat) (s : InputStream) (r : Outcome InputStream (Option Token)),
      read_next_fuel fuel s = some r → read_next_fuel (fuel + 1) s = some r := by
  intro fuel
  induction fuel with
  | zero => intro s r h; simp [read_next_fuel] at h
  | succ n ih =>
    intro s r h
    rw [read_next_fuel_succ] at h ⊢
    generalize (read_while (char_cond is_whitespace) () s).2.2 = s1 at h ⊢
    simp only at h ⊢
    cases hp : s1.peek with
    | none => simpa [hp] using h
    | some ch =>
      simp only [hp] at h ⊢
      by_cases hc : is_comment_start s1 ch = true
      · simp only [hc, if_true] at h ⊢
        cases hr : read_next_fuel n (skip_comment s1) with
        | none => simp [hr] at h
        | some r1 =>
          rw [ih _ _ hr]
          simpa [hr] using h
      · simp only [hc, Bool.false_eq_true, if_false] at h ⊢
        exact h

/-- The recursive equation of `read_next`: the function of the source, with the nested
call after a comment being `read_next` itself. -/
theorem read_next_eq (s : InputStream) :
    read_next s =
      (let s1 := (read_while (char_cond is_whitespace) () s).2.2
       let info := create_info s1
       match s1.peek with
       | none => some (.ok none s1)
       | some ch =>
         if is_comment_start s1 ch then
           match read_next (skip_comment s1) with
           | none => none
           | some (.raise e s2) => some (.raise e s2)
           | some (.ok none s2) => some (.raise .type_error s2)
           | some (.ok (some result) s2) => some (.ok (some { result with info := info }) s2)
         else if is_op_char ch then
           some (.ok (some ((read_op s1).1.with_info info)) (read_op s1).2)
         else if is_string_start ch then
           some (.ok (some ((read_string s1).1.with_info info)) (read_string s1).2)
         else if is_id_start ch then
           some (.ok (some ((read_id_or_keyword s1).1.with_info info)) (read_id_or_keyword s1).2)
         else if is_punc ch then
           some (.ok (some ((read_punc s1).1.with_info info)) (read_punc s1).2)
         else if is_number_start ch then
           some (.ok (some ((read_number s1).1.with_info info)) (read_number s1).2)
         else
           some (.raise (s1.throwerr ("Can't handle character: ".toList ++ [ch])) s1)) := by
  rw [read_next, read_next_fuel_succ]
  have hws := read_while_input (char_cond is_whitespace) () s
  generalize (read_while (char_cond is_whitespace) () s).2.2 = s1 at hws ⊢
  simp only
  cases hp : s1.peek with
  | none => rfl
  | some ch =>
    simp only
    by_cases hc : is_comment_start s1 ch = true
    · simp only [hc, if_true]
      have hsk := skip_comment_input s1
      have hlt := InputStream.pos_lt_of_peek hp
      have hne := read_next_fuel_ne_none s.input.length (skip_comment s1)
        (by rw [hws.1] at hlt; omega) (by rw [hsk.1, hws.1]; omega)
      obtain ⟨r, hr⟩ := Option.ne_none_iff_exists'.1 hne
      have hr1 : read_next (skip_comment s1) = some r := by
        rw [read_next, hsk.1, hws.1]
        exact read_next_fuel_mono _ _ _ hr
      rw [hr, hr1]
    · simp only [hc, Bool.false_eq_true, if_false]

/-! ## The one-token slot -/

/-- The outcome `null` of `read_next` comes with the cursor at end of input. -/
theorem read_next_fuel_null_eof :
    ∀ (fuel : Nat) (s s1 : InputStream), read_next_fuel fuel s = some (.ok none s1) →
      s1.peek = none := by
  intro fuel s s1 h
  cases fuel with
  | zero => simp [read_next_fuel] at h
  | succ n =>
    rw [read_next_fuel_succ] at h
    generalize (read_while (char_cond is_whitespace) () s).2.2 = s2 at h
    simp only at h
    cases hp : s2.peek with
    | none =>
      simp only [hp, Option.some.injEq, Outcome.ok.injEq, true_and] at h
      rw [← h]; exact hp
    | some ch =>
      simp only [hp] at h
      split at h
      · revert h
        cases read_next_fuel n (skip_comment s2) with
        | none => simp
        | some r =>
          rcases r with ⟨_ | _, _⟩ | _ <;> simp
      · split_ifs at h <;> simp at h

/-- After `peek()` has returned, a second `peek()` returns the same and changes nothing. -/
theorem TokenStream.peek_peek (ts ts1 : TokenStream) (result : Option Token)
    (h : ts.peek = some (.ok result ts1)) : ts1.peek = some (.ok result ts1) := by
  unfold TokenStream.peek at h
  cases hc : ts.current with
  | some tok =>
    simp only [hc, Option.some.injEq, Outcome.ok.injEq] at h
    obtain ⟨h1, h2⟩ := h
    subst h1 h2
    simp [TokenStream.peek, hc]
  | none =>
    simp only [hc] at h
    cases hr : read_next ts.input_stream with
    | none => simp [hr] at h
    | some r =>
      cases r with
      | raise e s => simp [hr] at h
      | ok res s =>
        simp only [hr, Option.some.injEq, Outcome.ok.injEq] at h
        obtain ⟨h1, h2⟩ := h
        subst h1 h2
        cases res with
        | some tok => simp [TokenStream.peek]
        | none =>
          have heof := read_next_fuel_null_eof _ _ _ hr
          simp [TokenStream.peek, read_next_at_eof s heof]

/-! ## Statements of the specification, C1 to C10 -/

/-- C1: on the source `foo`, an identifier that is not a reserved word, `read_next` returns
an `iden` token whose value is the empty text, not `foo`: the non-keyword branch of
`read_id_or_keyword` returns the result of a second `read_while(is_id)`, which finds the
identifier already consumed.  The same holds when an operator follows (`foo+1`). -/
theorem read_next_identifier_value_empty :
    read_next (InputStream.create "foo".toList) =
      some (.ok (some { type := .iden, value := .str [], info := { line := 0, col := 0 } })
        { input := "foo".toList, pos := 3, line := 0, col := 3 }) ∧
    read_next (InputStream.create "foo+1".toList) =
      some (.ok (some { type := .iden, value := .str [], info := { line := 0, col := 0 } })
        { input := "foo+1".toList, pos := 3, line := 0, col := 3 }) := by
  decide

/-- C2: on the source `a`, the first `next()` of a fresh token stream returns `null`; the
token it has just read stays in `_current`.  On every source the first `next()` of a fresh
token stream returns `null` or throws: it never returns a token. -/
theorem first_next_returns_null :
    (TokenStream.create (InputStream.create "a".toList)).next =
      some (.ok none
        { input_stream := { input := "a".toList, pos := 1, line := 0, col := 1 },
          current := some { type := .iden, value := .str [], info := { line := 0, col := 0 } } }) ∧
    ∀ s : InputStream,
      (∃ ts, (TokenStream.create s).next = some (.ok none ts)) ∨
      (∃ e ts, (TokenStream.create s).next = some (.raise e ts)) := by
  refine ⟨by decide, ?_⟩
  intro s
  have hne := read_next_ne_none s
  simp only [TokenStream.next, TokenStream.create]
  cases hr : read_next s with
  | none => exact absurd hr hne
  | some r =>
    cases r with
    | ok result s1 => exact Or.inl ⟨_, rfl⟩
    | raise e s1 => exact Or.inr ⟨_, _, rfl⟩

/-- C3: on the source `a #`, `peek()` returns the token of `a` and the `next()` that follows
throws the error of the character `#` at `[0:2]` instead of returning that token. -/
theorem next_after_peek_throws :
    (TokenStream.create (InputStream.create "a #".toList)).peek =
      some (.ok (some { type := .iden, value := .str [], info := { line := 0, col := 0 } })
        { input_stream := { input := "a #".toList, pos := 1, line := 0, col := 1 },
          current := some { type := .iden, value := .str [], info := { line := 0, col := 0 } } }) ∧
    TokenStream.next
        { input_stream := { input := "a #".toList, pos := 1, line := 0, col := 1 },
          current := some { type := .iden, value := .str [], info := { line := 0, col := 0 } } } =
      some (.raise (.lexical 0 2 "Can't handle character: #".toList)
        { input_stream := { input := "a #".toList, pos := 2, line := 0, col := 2 },
          current := some { type := .iden, value := .str [], info := { line := 0, col := 0 } } }) := by
  decide

/-- C4: on the source `a//comment<newline>b` the second token, read from `b` at line 1,
column 0, carries the position (0, 1) of the comment before it: the call of `read_next`
that skipped the comment assigns its own `info` to the token of the nested call. -/
theorem token_after_comment_position :
    read_all 3 (InputStream.create "a//comment\nb".toList) =
      some (.ok
        [{ type := .iden, value := .str [], info := { line := 0, col := 0 } },
         { type := .iden, value := .str [], info := { line := 0, col := 1 } }]
        { input := "a//comment\nb".toList, pos := 12, line := 1, col := 1 }) := by
  decide

/-- C5: on the sources `//c` and `/* c */`, and on `//c` followed by a newline,
`read_next` throws a `TypeError` (reached through `peek()` as well): the nested call
returns `null` and `result.info = info` is executed on it. -/
theorem comment_then_end_throws :
    read_next (InputStream.create "//c".toList) =
      some (.raise .type_error { input := "//c".toList, pos := 4, line := 0, col := 4 }) ∧
    read_next (InputStream.create "/* c */".toList) =
      some (.raise .type_error { input := "/* c */".toList, pos := 7, line := 0, col := 7 }) ∧
    read_next (InputStream.create "//c\n".toList) =
      some (.raise .type_error { input := "//c\n".toList, pos := 4, line := 1, col := 0 }) ∧
    (TokenStream.create (InputStream.create "//c".toList)).peek =
      some (.raise .type_error
        { input_stream := { input := "//c".toList, pos := 4, line := 0, col := 4 },
          current := none }) := by
  decide

/-- C6: on the source `var x = 5;` successive `read_next` calls, and the loop of `main.js`,
give five tokens with the kinds and positions of the claim, but the value of the
identifier token is the empty text, not `x`. -/
theorem var_x_eq_5_tokens :
    read_all 6 (InputStream.create "var x = 5;".toList) =
      some (.ok
        [{ type := .keyword, value := .str "var".toList, info := { line := 0, col := 0 } },
         { type := .iden, value := .str [], info := { line := 0, col := 4 } },
         { type := .op, value := .str "=".toList, info := { line := 0, col := 6 } },
         { type := .num, value := .num ⟨5, 0⟩, info := { line := 0, col := 8 } },
         { type := .punc, value := .str ";".toList, info := { line := 0, col := 9 } }]
        { input := "var x = 5;".toList, pos := 10, line := 0, col := 10 }) ∧
    main_loop 6 (TokenStream.create (InputStream.create "var x = 5;".toList)) [] =
      some (.ok ()
        ({ input_stream := { input := "var x = 5;".toList, pos := 10, line := 0, col := 10 },
           current := none },
         [some { type := .keyword, value := .str "var".toList, info := { line := 0, col := 0 } },
          some { type := .iden, value := .str [], info := { line := 0, col := 4 } },
          some { type := .op, value := .str "=".toList, info := { line := 0, col := 6 } },
          some { type := .num, value := .num ⟨5, 0⟩, info := { line := 0, col := 8 } },
          some { type := .punc, value := .str ";".toList, info := { line := 0, col := 9 } }])) := by
  decide

/-- C7: on the source `a b` no scan throws (successive `read_next` calls return two tokens
and then `null`), yet calling `next()` on a fresh token stream until it first returns
`null` stops after the first call, with the cursor at offset 1 of 3: not at the end of
the input. -/
theorem next_until_null_stops_early :
    read_all 3 (InputStream.create "a b".toList) =
      some (.ok
        [{ type := .iden, value := .str [], info := { line := 0, col := 0 } },
         { type := .iden, value := .str [], info := { line := 0, col := 2 } }]
        { input := "a b".toList, pos := 3, line := 0, col := 3 }) ∧
    (∀ fuel : Nat,
      next_until_null (fuel + 1) (TokenStream.create (InputStream.create "a b".toList)) =
        some (.ok ()
          { input_stream := { input := "a b".toList, pos := 1, line := 0, col := 1 },
            current :=
              some { type := .iden, value := .str [], info := { line := 0, col := 0 } } })) ∧
    InputStream.eof { input := "a b".toList, pos := 1, line := 0, col := 1 } = false := by
  refine ⟨by decide, ?_, by decide⟩
  intro fuel
  rfl

/-- C8: at end of input the cursor's `next()` returns the empty string and increments the
column (and the offset): on the empty source, and on the cursor `skip_line_comment` leaves
at the end of `//c`, whose column 4 is past the three characters of the source. -/
theorem next_at_eof_bumps_col :
    (InputStream.create []).next = (none, { input := [], pos := 1, line := 0, col := 1 }) ∧
    InputStream.next { input := "//c".toList, pos := 3, line := 0, col := 3 } =
      (none, { input := "//c".toList, pos := 4, line := 0, col := 4 }) ∧
    skip_comment (InputStream.create "//c".toList) =
      { input := "//c".toList, pos := 4, line := 0, col := 4 } := by
  decide

/-- C9: scanning an identifier-shaped source `w` yields exactly one token, by successive
`read_next` calls and by the loop of `main.js` alike; its kind is `keyword` if and only if
`w` is one of the ten reserved words, and `iden` otherwise. -/
theorem keyword_identifier_partition (w : List Char) (hw : identifier_shaped w = true) :
    ∃ (tok : Token) (s1 : InputStream),
      (∀ fuel : Nat, read_all (fuel + 2) (InputStream.create w) = some (.ok [tok] s1)) ∧
      (∀ fuel : Nat, main_loop (fuel + 2) (TokenStream.create (InputStream.create w)) [] =
        some (.ok () ({ input_stream := s1, current := none }, [some tok]))) ∧
      (tok.type = .keyword ↔
        w ∈ ["if".toList, "return".toList, "else".toList, "function".toList, "var".toList,
             "null".toList, "true".toList, "false".toList, "while".toList, "for".toList]) ∧
      (w ∉ ["if".toList, "return".toList, "else".toList, "function".toList, "var".toList,
            "null".toList, "true".toList, "false".toList, "while".toList, "for".toList] →
        tok.type = .iden) := by
  have h1 := read_next_identifier_shaped w hw
  have heof : ((InputStream.create w).advance w.length).peek = none := by
    simp [InputStream.peek, InputStream.advance_input, InputStream.advance_pos,
      InputStream.create]
  have h2 := read_next_at_eof _ heof
  have hk : is_keywords w = true ↔
      w ∈ ["if".toList, "return".toList, "else".toList, "function".toList, "var".toList,
           "null".toList, "true".toList, "false".toList, "while".toList, "for".toList] := by
    simp only [is_keywords, keywords, List.contains, List.elem_eq_mem, decide_eq_true_eq]
  refine ⟨{ type := if is_keywords w then .keyword else .iden,
             value := .str (if is_keywords w then w else []),
             info := { line := 0, col := 0 } },
    (InputStream.create w).advance w.length, ?_, ?_, ?_, ?_⟩
  · intro fuel
    simp only [read_all, h1, h2]
  · intro fuel
    simp only [main_loop, TokenStream.eof, TokenStream.peek, TokenStream.next,
      TokenStream.create, h1, h2, Option.isNone_some, Option.isNone_none, List.nil_append]
  · rw [← hk]
    by_cases h : is_keywords w = true <;> simp [h]
  · rw [← hk]
    intro h
    simp [h]

/-- The partition of identifier-shaped text, applied to the source `while`. -/
theorem keyword_identifier_partition_witness :
    identifier_shaped "while".toList = true ∧
    ∃ (tok : Token) (s1 : InputStream),
      (∀ fuel : Nat, read_all (fuel + 2) (InputStream.create "while".toList) =
        some (.ok [tok] s1)) ∧
      (∀ fuel : Nat,
        main_loop (fuel + 2) (TokenStream.create (InputStream.create "while".toList)) [] =
          some (.ok () ({ input_stream := s1, current := none }, [some tok]))) ∧
      (tok.type = .keyword ↔
        "while".toList ∈
          ["if".toList, "return".toList, "else".toList, "function".toList, "var".toList,
           "null".toList, "true".toList, "false".toList, "while".toList, "for".toList]) ∧
      ("while".toList ∉
          ["if".toList, "return".toList, "else".toList, "function".toList, "var".toList,
           "null".toList, "true".toList, "false".toList, "while".toList, "for".toList] →
        tok.type = .iden) :=
  ⟨by decide, keyword_identifier_partition "while".toList (by decide)⟩

/-- C10: when `peek()` returns without throwing, `n + 1` calls of `peek()` in a row all
return what the first call returned, and the state after the last call (the cursor's
offset, line and column included) is the state after the first. -/
theorem peek_idempotent (ts ts1 : TokenStream) (result : Option Token)
    (h : ts.peek = some (.ok result ts1)) (n : Nat) :
    peek_calls (n + 1) ts = some (.ok (List.replicate (n + 1) result) ts1) := by
  have hrep : ∀ k : Nat, peek_calls k ts1 = some (.ok (List.replicate k result) ts1) := by
    intro k
    induction k with
    | zero => rfl
    | succ k ih => simp only [peek_calls, TokenStream.peek_peek ts ts1 result h, ih,
        List.replicate_succ]
  simp only [peek_calls, h, hrep n, List.replicate_succ]

/-- Three calls of `peek()` in a row on the source `a b`. -/
theorem peek_idempotent_witness :
    (TokenStream.create (InputStream.create "a b".toList)).peek =
      some (.ok (some { type := .iden, value := .str [], info := { line := 0, col := 0 } })
        { input_stream := { input := "a b".toList, pos := 1, line := 0, col := 1 },
          current := some { type := .iden, value := .str [], info := { line := 0, col := 0 } } }) ∧
    peek_calls (2 + 1) (TokenStream.create (InputStream.create "a b".toList)) =
      some (.ok
        (List.replicate (2 + 1)
          (some { type := .iden, value := .str [], info := { line := 0, col := 0 } }))
        { input_stream := { input := "a b".toList, pos := 1, line := 0, col := 1 },
          current := some { type := .iden, value := .str [], info := { line := 0, col := 0 } } }) :=
  ⟨by decide, peek_idempotent _ _ _ (by decide) 2⟩

/-! ## The position counters -/

theorem line_of_append_singleton (pre : List Char) (c : Char) :
    line_of (pre ++ [c]) = if c = '\n' then line_of pre + 1 else line_of pre := by
  simp only [line_of, List.count_append, List.count_singleton]
  split_ifs with h1 h2 h2
  · rfl
  · simp at h1; exact absurd h1 h2
  · simp at h1; exact absurd h2 h1
  · rfl

theorem col_of_append_singleton (pre : List Char) (c : Char) :
    col_of (pre ++ [c]) = if c = '\n' then 0 else col_of pre + 1 := by
  simp only [col_of, List.reverse_append, List.reverse_singleton, List.singleton_append,
    List.takeWhile_cons]
  split_ifs with h1 h2 h2
  · simp at h1; exact absurd h2 h1
  · rfl
  · rfl
  · simp at h1; exact absurd h1 h2

/-- On a fresh cursor, `k` calls of `next()` within the source leave the offset at `k` and
the counters at the line and column of the character that follows the first `k`. -/
theorem advance_create (src : List Char) :
    ∀ k : Nat, k ≤ src.length →
      (InputStream.create src).advance k =
        { input := src, pos := k, line := line_of (src.take k), col := col_of (src.take k) } := by
  intro k
  induction k with
  | zero => intro _; rfl
  | succ k ih =>
    intro hk
    have hk1 : k < src.length := by omega
    have ih1 := ih (by omega)
    have hstep : (InputStream.create src).advance (k + 1)
        = ((InputStream.create src).advance k).next.2 := by
      simp only [InputStream.advance, Function.iterate_succ_apply']
    rw [hstep, ih1]
    have htake : src.take (k + 1) = src.take k ++ [src[k]] := by
      rw [List.take_succ, List.getElem?_eq_getElem hk1]; rfl
    have hget : src[k]? = some src[k] := List.getElem?_eq_getElem hk1
    rw [htake, line_of_append_singleton, col_of_append_singleton]
    simp only [InputStream.next, hget, Option.some.injEq]
    by_cases hc : src[k] = '\n'
    · simp [hc]
    · simp [hc]

theorem isDigit_of_is_number_start (c : Char) (h : is_number_start c = true) :
    c.isDigit = true := by
  simp only [is_number_start, List.contains, List.elem_eq_mem, List.mem_cons, List.mem_singleton,
    decide_eq_true_eq, List.not_mem_nil, or_false] at h
  rcases h with rfl | rfl | rfl | rfl | rfl | rfl | rfl | rfl | rfl | rfl <;> decide

theorem is_number_start_eq_isDigit (c : Char) : is_number_start c = c.isDigit := by
  cases h : c.isDigit with
  | true => exact is_number_start_of_isDigit c h
  | false =>
    cases h1 : is_number_start c with
    | false => rfl
    | true => rw [isDigit_of_is_number_start c h1] at h; exact absurd h (by decide)

/-- A digit starts a number and nothing else. -/
theorem digit_classes (c : Char) (h : c.isDigit = true) :
    c ≠ '/' ∧ is_whitespace c = false ∧ is_op_char c = false ∧ is_string_start c = false ∧
      is_id_start c = false ∧ is_punc c = false ∧ is_number_start c = true := by
  have h1 := is_number_start_of_isDigit c h
  simp only [is_number_start, List.contains, List.elem_eq_mem, List.mem_cons, List.mem_singleton,
    decide_eq_true_eq, List.not_mem_nil, or_false] at h1
  rcases h1 with rfl | rfl | rfl | rfl | rfl | rfl | rfl | rfl | rfl | rfl <;> decide

/-- A quote character starts a string and nothing before it in the order of the rules. -/
theorem quote_classes (q : Char) (h : q ∈ quotes) :
    q ≠ '/' ∧ q ≠ '\\' ∧ is_whitespace q = false ∧ is_op_char q = false ∧
      is_string_start q = true := by
  simp only [quotes, List.mem_cons, List.mem_singleton, List.not_mem_nil, or_false] at h
  rcases h with rfl | rfl | rfl <;> decide

/-- An operator character is not whitespace. -/
theorem op_char_not_whitespace (c : Char) (h : is_op_char c = true) :
    is_whitespace c = false := by
  simp only [is_op_char, List.contains, List.elem_eq_mem, List.mem_cons, List.mem_singleton,
    decide_eq_true_eq, List.not_mem_nil, or_false] at h
  rcases h with rfl | rfl | rfl | rfl | rfl | rfl | rfl | rfl | rfl | rfl | rfl <;> decide

theorem InputStream.advance_add (m n : Nat) (s : InputStream) :
    (s.advance m).advance n = s.advance (m + n) := by
  simp only [InputStream.advance]
  rw [Nat.add_comm, Function.iterate_add_apply]

theorem InputStream.advance_drop (k : Nat) (s : InputStream) :
    (s.advance k).input.drop (s.advance k).pos = s.input.drop (s.pos + k) := by
  rw [InputStream.advance_input, InputStream.advance_pos]

theorem InputStream.advance_peek (k : Nat) (s : InputStream) :
    (s.advance k).peek = (s.input.drop (s.pos + k)).head? := by
  rw [InputStream.peek_eq_head, InputStream.advance_drop]

/-- Skipping the whitespace `ws` at the start of a source. -/
theorem read_while_whitespace_create (ws rest : List Char)
    (hws : ∀ c ∈ ws, is_whitespace c = true)
    (hrest : ∀ c, rest.head? = some c → is_whitespace c = false) :
    read_while (char_cond is_whitespace) () (InputStream.create (ws ++ rest)) =
      (ws, (), (InputStream.create (ws ++ rest)).advance ws.length) :=
  read_while_char_cond is_whitespace ws rest _ rfl hws hrest

/-- The cursor after the whitespace `ws` at the start of a source. -/
theorem advance_create_append (ws rest : List Char) :
    (InputStream.create (ws ++ rest)).advance ws.length =
      { input := ws ++ rest, pos := ws.length, line := line_of ws, col := col_of ws } := by
  rw [advance_create _ _ (by simp)]
  simp

/-- The outcome of `read_next` once the whitespace is skipped, when the character found is
not a comment start and is an operator character. -/
theorem read_next_op (s s1 : InputStream) (ch : Char)
    (hw : (read_while (char_cond is_whitespace) () s).2.2 = s1) (hp : s1.peek = some ch)
    (hc : is_comment_start s1 ch = false) (hop : is_op_char ch = true) :
    read_next s = some (.ok (some ((read_op s1).1.with_info (create_info s1))) (read_op s1).2) := by
  rw [read_next_eq]
  simp only [hw, hp, hc, hop, Bool.false_eq_true, if_false, if_true]

theorem read_next_string (s s1 : InputStream) (ch : Char)
    (hw : (read_while (char_cond is_whitespace) () s).2.2 = s1) (hp : s1.peek = some ch)
    (hc : is_comment_start s1 ch = false) (hop : is_op_char ch = false)
    (hstr : is_string_start ch = true) :
    read_next s =
      some (.ok (some ((read_string s1).1.with_info (create_info s1))) (read_string s1).2) := by
  rw [read_next_eq]
  simp only [hw, hp, hc, hop, hstr, Bool.false_eq_true, if_false, if_true]

theorem read_next_number (s s1 : InputStream) (ch : Char)
    (hw : (read_while (char_cond is_whitespace) () s).2.2 = s1) (hp : s1.peek = some ch)
    (hc : is_comment_start s1 ch = false) (hop : is_op_char ch = false)
    (hstr : is_string_start ch = false) (hid : is_id_start ch = false)
    (hpunc : is_punc ch = false) (hnum : is_number_start ch = true) :
    read_next s =
      some (.ok (some ((read_number s1).1.with_info (create_info s1))) (read_number s1).2) := by
  rw [read_next_eq]
  simp only [hw, hp, hc, hop, hstr, hid, hpunc, hnum, Bool.false_eq_true, if_false, if_true]

theorem read_next_unrecognized (s s1 : InputStream) (ch : Char)
    (hw : (read_while (char_cond is_whitespace) () s).2.2 = s1) (hp : s1.peek = some ch)
    (hc : is_comment_start s1 ch = false) (hop : is_op_char ch = false)
    (hstr : is_string_start ch = false) (hid : is_id_start ch = false)
    (hpunc : is_punc ch = false) (hnum : is_number_start ch = false) :
    read_next s =
      some (.raise (s1.throwerr ("Can't handle character: ".toList ++ [ch])) s1) := by
  rw [read_next_eq]
  simp only [hw, hp, hc, hop, hstr, hid, hpunc, hnum, Bool.false_eq_true, if_false]

theorem not_comment_start_of_ne (s : InputStream) (ch : Char) (h : ch ≠ '/') :
    is_comment_start s ch = false := by
  simp [is_comment_start, h]

theorem is_whitespace_of_blank (ws : List Char) (h : blank ws = true) :
    ∀ c ∈ ws, is_whitespace c = true := by
  intro c hc
  simp only [blank, List.all_eq_true] at h
  have := h c hc
  simp only [Bool.or_eq_true, beq_iff_eq] at this
  rcases this with (rfl | rfl) | rfl <;> decide

theorem head_dropWhile_not (p : Char → Bool) :
    ∀ (l : List Char) (c : Char), (l.dropWhile p).head? = some c → p c = false := by
  intro l
  induction l with
  | nil => intro c h; simp at h
  | cons a l ih =>
    intro c h
    by_cases ha : p a = true
    · rw [List.dropWhile_cons_of_pos ha] at h; exact ih c h
    · rw [List.dropWhile_cons_of_neg ha] at h
      simp only [List.head?_cons, Option.some.injEq] at h
      subst h
      simpa using ha

/-- The cursor before the text `body`, after the whitespace `ws` of a source. -/
theorem after_whitespace (ws body : List Char) (hws : blank ws = true)
    (hbody : ∀ c, body.head? = some c → is_whitespace c = false) :
    (read_while (char_cond is_whitespace) () (InputStream.create (ws ++ body))).2.2 =
        { input := ws ++ body, pos := ws.length, line := line_of ws, col := col_of ws } ∧
      (InputStream.create (ws ++ body)).advance ws.length =
        { input := ws ++ body, pos := ws.length, line := line_of ws, col := col_of ws } := by
  have h1 := read_while_whitespace_create ws body (is_whitespace_of_blank ws hws) hbody
  have h2 := advance_create_append ws body
  rw [h1, h2]
  exact ⟨rfl, rfl⟩

/-- The function `read_op` on a cursor that stands before the text `body`. -/
theorem read_op_spec (s : InputStream) (body : List Char)
    (hdrop : s.input.drop s.pos = body) :
    read_op s = ({ type := .op, value := .str (body.takeWhile is_op_char) },
      s.advance (body.takeWhile is_op_char).length) := by
  have h := read_while_char_cond is_op_char (body.takeWhile is_op_char)
    (body.dropWhile is_op_char) s (by rw [hdrop, List.takeWhile_append_dropWhile])
    (fun c hc => (List.mem_takeWhile_imp hc))
    (head_dropWhile_not is_op_char body)
  simp only [read_op, h]

theorem col_of_no_newline (pre : List Char) (h : '\n' ∉ pre) : col_of pre = pre.length := by
  simp only [col_of]
  rw [List.takeWhile_eq_self_iff.2, List.length_reverse]
  intro c hc
  have hc1 : c ∈ pre := List.mem_reverse.1 hc
  have : c ≠ '\n' := fun hcn => h (hcn ▸ hc1)
  simpa using this

theorem drop_length_takeWhile (p : Char → Bool) (l : List Char) :
    l.drop (l.takeWhile p).length = l.dropWhile p := by
  induction l with
  | nil => rfl
  | cons a l ih =>
    by_cases h : p a = true
    · simp [List.takeWhile_cons, List.dropWhile_cons, h, ih]
    · simp [List.takeWhile_cons, List.dropWhile_cons, h]

/-- C17: on a fresh cursor over `src`, after `k` calls of `next()` with `k` at most the
length of `src`, the offset is `k`, call number `i` returned the character `src[i]`, the
line counter is the number of newlines among the first `k` characters and the column
counter is the number of characters after the last of these newlines (`k` when there is
none): the counters are the position of the next character. -/
theorem cursor_counters (src : List Char) (k : Nat) (hk : k ≤ src.length) :
    ((InputStream.create src).advance k).pos = k ∧
    (∀ i : Nat, i < k → ((InputStream.create src).advance i).next.1 = src[i]?) ∧
    ((InputStream.create src).advance k).line = line_of (src.take k) ∧
    ((InputStream.create src).advance k).col = col_of (src.take k) ∧
    ('\n' ∉ src.take k → ((InputStream.create src).advance k).col = k) := by
  have h := advance_create src k hk
  refine ⟨by rw [h], ?_, by rw [h], by rw [h], ?_⟩
  · intro i hi
    rw [advance_create src i (by omega), InputStream.next_fst]
    rfl
  · intro hn
    rw [h]
    simp only
    rw [col_of_no_newline _ hn, List.length_take]
    omega

/-- The counters after the five characters of `ab`, newline, `cd`. -/
theorem cursor_counters_witness :
    5 ≤ "ab\ncd".toList.length ∧
    ((InputStream.create "ab\ncd".toList).advance 5).pos = 5 ∧
    (∀ i : Nat, i < 5 →
      ((InputStream.create "ab\ncd".toList).advance i).next.1 = "ab\ncd".toList[i]?) ∧
    ((InputStream.create "ab\ncd".toList).advance 5).line = line_of ("ab\ncd".toList.take 5) ∧
    ((InputStream.create "ab\ncd".toList).advance 5).col = col_of ("ab\ncd".toList.take 5) ∧
    ('\n' ∉ "ab\ncd".toList.take 5 → ((InputStream.create "ab\ncd".toList).advance 5).col = 5) :=
  ⟨by decide, cursor_counters "ab\ncd".toList 5 (by decide)⟩

/-- C15: when the first character after the whitespace `ws` is an operator character `c`
that does not start a comment, `read_next` returns an `op` token whose value is the longest
run of operator characters from `c` on (any `/` inside it included), positioned at `c`, and
the cursor stops right after the run: at end of input or before a character that is not an
operator character. -/
theorem operator_run (ws tl : List Char) (c : Char) (hws : blank ws = true)
    (hc : c ∈ ['+', '-', '*', '/', '=', '&', '|', '<', '>', '!', '.'])
    (hcom : ¬ (c = '/' ∧ (tl.head? = some '/' ∨ tl.head? = some '*'))) :
    read_next (InputStream.create (ws ++ c :: tl)) =
      some (.ok
        (some { type := .op, value := .str ((c :: tl).takeWhile is_op_char),
                info := { line := line_of ws, col := col_of ws } })
        ((InputStream.create (ws ++ c :: tl)).advance
          (ws.length + ((c :: tl).takeWhile is_op_char).length))) ∧
    ((InputStream.create (ws ++ c :: tl)).advance
        (ws.length + ((c :: tl).takeWhile is_op_char).length)).peek =
      ((c :: tl).dropWhile is_op_char).head? ∧
    (∀ d : Char, ((c :: tl).dropWhile is_op_char).head? = some d → is_op_char d = false) ∧
    (c :: tl).takeWhile is_op_char ≠ [] := by
  have hop : is_op_char c = true := by
    simp only [is_op_char, List.contains, List.elem_eq_mem, decide_eq_true_eq]
    exact hc
  obtain ⟨hw, hadv⟩ := after_whitespace ws (c :: tl) hws (by
    intro d hd
    simp only [List.head?_cons, Option.some.injEq] at hd
    subst hd
    exact op_char_not_whitespace _ hop)
  have hp : InputStream.peek (InputStream.mk (ws ++ c :: tl) ws.length (line_of ws) (col_of ws))
      = some c := by
    rw [InputStream.peek_eq_head]; simp
  have hcs : is_comment_start (InputStream.mk (ws ++ c :: tl) ws.length (line_of ws) (col_of ws))
      c = false := by
    have hl : InputStream.lookup_next
        (InputStream.mk (ws ++ c :: tl) ws.length (line_of ws) (col_of ws)) = tl.head? := by
      simp [InputStream.lookup_next, List.getElem?_append_right, List.head?_eq_getElem?]
    simp only [is_comment_start, hl]
    by_cases hsl : c = '/'
    · have h1 : ¬ (tl.head? = some '/' ∨ tl.head? = some '*') := fun h => hcom ⟨hsl, h⟩
      rw [not_or] at h1
      simp [h1.1, h1.2]
    · simp [hsl]
  have hdrop : (InputStream.mk (ws ++ c :: tl) ws.length (line_of ws) (col_of ws)).input.drop
      (InputStream.mk (ws ++ c :: tl) ws.length (line_of ws) (col_of ws)).pos = c :: tl := by
    simp
  refine ⟨?_, ?_, head_dropWhile_not is_op_char (c :: tl), ?_⟩
  · rw [read_next_op _ _ c hw hp hcs hop, read_op_spec _ _ hdrop, ← hadv,
      InputStream.advance_add]
    simp [RawToken.with_info, create_info, InputStream.get_line, InputStream.get_col, hadv]
  · rw [InputStream.advance_peek]
    simp only [InputStream.create, Nat.zero_add]
    rw [← List.drop_drop, List.drop_left, drop_length_takeWhile]
  · simp [List.takeWhile_cons, hop]

/-- The operator run at the start of the source ` +//x`, after one space. -/
theorem operator_run_witness :
    blank " ".toList = true ∧
    '+' ∈ ['+', '-', '*', '/', '=', '&', '|', '<', '>', '!', '.'] ∧
    ¬ ('+' = '/' ∧ ("//x".toList.head? = some '/' ∨ "//x".toList.head? = some '*')) ∧
    read_next (InputStream.create (" ".toList ++ '+' :: "//x".toList)) =
      some (.ok
        (some { type := .op, value := .str (('+' :: "//x".toList).takeWhile is_op_char),
                info := { line := line_of " ".toList, col := col_of " ".toList } })
        ((InputStream.create (" ".toList ++ '+' :: "//x".toList)).advance
          (" ".toList.length + (('+' :: "//x".toList).takeWhile is_op_char).length))) ∧
    ((InputStream.create (" ".toList ++ '+' :: "//x".toList)).advance
        (" ".toList.length + (('+' :: "//x".toList).takeWhile is_op_char).length)).peek =
      (('+' :: "//x".toList).dropWhile is_op_char).head? ∧
    (∀ d : Char, (('+' :: "//x".toList).dropWhile is_op_char).head? = some d →
      is_op_char d = false) ∧
    ('+' :: "//x".toList).takeWhile is_op_char ≠ [] :=
  ⟨by decide, by decide, by decide,
    operator_run " ".toList "//x".toList '+' (by decide) (by decide) (by decide)⟩

/-! ## Numbers -/

/-- The loop of `read_while` with the callback of `read_number` takes the number run. -/
theorem read_while_loop_number :
    ∀ (body : List Char) (has_dot : Bool) (s : InputStream) (buffer : List Char) (fuel : Nat),
      s.input.drop s.pos = body → body.length ≤ fuel →
      (read_while_loop number_cond fuel has_dot s buffer).1 = buffer ++ number_run has_dot body ∧
      (read_while_loop number_cond fuel has_dot s buffer).2.2
        = s.advance (number_run has_dot body).length := by
  intro body
  induction body with
  | nil =>
    intro has_dot s buffer fuel hdrop _
    have hp : s.peek = none := by rw [InputStream.peek_eq_head, hdrop]; rfl
    cases fuel <;> simp [read_while_loop, hp, number_run, InputStream.advance]
  | cons c rest ih =>
    intro has_dot s buffer fuel hdrop hlen
    cases fuel with
    | zero => simp at hlen
    | succ n =>
      have hp : s.peek = some c := by rw [InputStream.peek_eq_head, hdrop]; rfl
      have hdrop1 : s.next.2.input.drop s.next.2.pos = rest := by
        rw [InputStream.next_input, InputStream.next_pos]
        exact drop_succ_of_drop_cons hdrop
      have hlen1 : rest.length ≤ n := by simpa using hlen
      have hstep : ∀ k : Nat, s.next.2.advance k = s.advance (k + 1) := by
        intro k
        simp [InputStream.advance, Function.iterate_succ_apply]
      rw [read_while_loop]
      simp only [hp, InputStream.next_fst, Option.toList]
      by_cases hdot : c = '.'
      · subst hdot
        cases has_dot with
        | true =>
          simp [number_cond, number_run, InputStream.advance, Char.isDigit]
        | false =>
          have := ih true s.next.2 (buffer ++ ['.']) n hdrop1 hlen1
          simp only [number_cond, beq_self_eq_true, if_true, Bool.false_eq_true, if_false]
          rw [this.1, this.2, hstep]
          simp [number_run, Char.isDigit]
      · have hne : (c == '.') = false := by simpa using hdot
        by_cases hd : c.isDigit = true
        · have hns : is_number_start c = true := by rw [is_number_start_eq_isDigit]; exact hd
          have := ih has_dot s.next.2 (buffer ++ [c]) n hdrop1 hlen1
          simp only [number_cond, hne, Bool.false_eq_true, if_false, hns]
          rw [this.1, this.2, hstep]
          simp [number_run, hd]
        · have hns : is_number_start c = false := by
            rw [is_number_start_eq_isDigit]; simpa using hd
          simp [number_cond, hne, hns, number_run, hd, InputStream.advance]

/-- The function `read_number` on a cursor that stands before the text `body`. -/
theorem read_number_spec (s : InputStream) (body : List Char)
    (hdrop : s.input.drop s.pos = body) :
    read_number s = ({ type := .num, value := .num (parseFloat (number_run false body)) },
      s.advance (number_run false body).length) := by
  have hlen : body.length ≤ s.input.length - s.pos := by
    have := congrArg List.length hdrop
    simp at this; omega
  have h := read_while_loop_number body false s [] _ hdrop hlen
  simp only [read_number, read_while, h.1, h.2, List.nil_append]

/-- The number run is a prefix of the text, and what follows it is neither a digit nor a
first `.`: the run is the longest one. -/
theorem number_run_longest :
    ∀ (body : List Char) (seen_dot : Bool),
      ∃ rest : List Char, body = number_run seen_dot body ++ rest ∧
        ∀ d : Char, rest.head? = some d →
          d.isDigit = false ∧ (d = '.' → seen_dot = true ∨ '.' ∈ number_run seen_dot body) := by
  intro body
  induction body with
  | nil => intro sd; exact ⟨[], rfl, by simp⟩
  | cons c rest ih =>
    intro sd
    by_cases hd : c.isDigit = true
    · obtain ⟨r, hr, hnext⟩ := ih sd
      refine ⟨r, by simp only [number_run, hd, if_true, List.cons_append, ← hr], ?_⟩
      intro d hdh
      obtain ⟨h1, h2⟩ := hnext d hdh
      refine ⟨h1, fun hdd => ?_⟩
      rcases h2 hdd with h | h
      · exact Or.inl h
      · exact Or.inr (by simp [number_run, hd, h])
    · by_cases hdot : (c == '.' && !sd) = true
      · obtain ⟨r, hr, hnext⟩ := ih true
        refine ⟨r, by simp only [number_run, hd, hdot, if_true, Bool.false_eq_true, if_false,
          List.cons_append, ← hr], ?_⟩
        intro d hdh
        obtain ⟨h1, _⟩ := hnext d hdh
        refine ⟨h1, fun _ => Or.inr ?_⟩
        simp only [Bool.and_eq_true, beq_iff_eq] at hdot
        simp [number_run, hd, hdot.1, hdot.2]
      · refine ⟨c :: rest, by simp [number_run, hd, hdot], ?_⟩
        intro d hdh
        simp only [List.head?_cons, Option.some.injEq] at hdh
        subst hdh
        refine ⟨by simpa using hd, fun hdd => Or.inl ?_⟩
        subst hdd
        simpa using hdot

/-- On a cursor whose next character is not whitespace, `read_while(is_whitespace)` reads
nothing. -/
theorem read_while_whitespace_none (s : InputStream) (c : Char) (rest : List Char)
    (hdrop : s.input.drop s.pos = c :: rest) (hc : is_whitespace c = false) :
    (read_while (char_cond is_whitespace) () s).2.2 = s := by
  have h := read_while_char_cond is_whitespace [] (c :: rest) s hdrop (by simp)
    (by
      intro d hd
      simp only [List.head?_cons, Option.some.injEq] at hd
      subst hd; exact hc)
  rw [h]; rfl

/-- C12: when the first character after the whitespace `ws` is a digit, `read_next` returns
a `num` token read from the longest run of characters that are digits or the first `.`,
and the cursor stops right after that run; when the run is followed by a `.` (a second
one), that `.` starts the next token, an operator.  The source `1.2.3` gives the number
1.2, the operator `.` and the number 3. -/
theorem number_token_run (ws tl : List Char) (c : Char) (hws : blank ws = true)
    (hc : c.isDigit = true) :
    read_next (InputStream.create (ws ++ c :: tl)) =
      some (.ok
        (some { type := .num, value := .num (parseFloat (number_run false (c :: tl))),
                info := { line := line_of ws, col := col_of ws } })
        ((InputStream.create (ws ++ c :: tl)).advance
          (ws.length + (number_run false (c :: tl)).length))) ∧
    (∀ rest : List Char, c :: tl = number_run false (c :: tl) ++ '.' :: rest →
      read_next ((InputStream.create (ws ++ c :: tl)).advance
          (ws.length + (number_run false (c :: tl)).length)) =
        some (.ok
          (some { type := .op, value := .str (('.' :: rest).takeWhile is_op_char),
                  info := create_info ((InputStream.create (ws ++ c :: tl)).advance
                    (ws.length + (number_run false (c :: tl)).length)) })
          ((InputStream.create (ws ++ c :: tl)).advance
            (ws.length + (number_run false (c :: tl)).length +
              (('.' :: rest).takeWhile is_op_char).length)))) ∧
    read_all 4 (InputStream.create "1.2.3".toList) =
      some (.ok
        [{ type := .num, value := .num ⟨12, 1⟩, info := { line := 0, col := 0 } },
         { type := .op, value := .str ".".toList, info := { line := 0, col := 3 } },
         { type := .num, value := .num ⟨3, 0⟩, info := { line := 0, col := 4 } }]
        { input := "1.2.3".toList, pos := 5, line := 0, col := 5 }) := by
  obtain ⟨hne, hnw, hop, hstr, hid, hpunc, hnum⟩ := digit_classes c hc
  obtain ⟨hw, hadv⟩ := after_whitespace ws (c :: tl) hws (by
    intro d hd
    simp only [List.head?_cons, Option.some.injEq] at hd
    subst hd; exact hnw)
  have hp : InputStream.peek (InputStream.mk (ws ++ c :: tl) ws.length (line_of ws) (col_of ws))
      = some c := by
    rw [InputStream.peek_eq_head]; simp
  have hdrop : (InputStream.mk (ws ++ c :: tl) ws.length (line_of ws) (col_of ws)).input.drop
      (InputStream.mk (ws ++ c :: tl) ws.length (line_of ws) (col_of ws)).pos = c :: tl := by
    simp
  refine ⟨?_, ?_, by decide⟩
  · rw [read_next_number _ _ c hw hp (not_comment_start_of_ne _ _ hne) hop hstr hid hpunc hnum,
      read_number_spec _ _ hdrop, ← hadv, InputStream.advance_add]
    simp [RawToken.with_info, create_info, InputStream.get_line, InputStream.get_col, hadv]
  · intro rest hrest
    have hdrop2 : ((InputStream.create (ws ++ c :: tl)).advance
        (ws.length + (number_run false (c :: tl)).length)).input.drop
        ((InputStream.create (ws ++ c :: tl)).advance
        (ws.length + (number_run false (c :: tl)).length)).pos = '.' :: rest := by
      rw [InputStream.advance_drop]
      simp only [InputStream.create, Nat.zero_add]
      rw [← List.drop_drop, List.drop_left]
      generalize number_run false (c :: tl) = run at hrest ⊢
      rw [hrest, List.drop_left]
    have hw2 := read_while_whitespace_none _ '.' rest hdrop2 (by decide)
    have hp2 : ((InputStream.create (ws ++ c :: tl)).advance
        (ws.length + (number_run false (c :: tl)).length)).peek = some '.' := by
      rw [InputStream.peek_eq_head, hdrop2]; rfl
    rw [read_next_op _ _ '.' hw2 hp2 (not_comment_start_of_ne _ _ (by decide)) (by decide),
      read_op_spec _ _ hdrop2, InputStream.advance_add]
    simp [RawToken.with_info]

/-- The number at the start of the source `12.5.x`. -/
theorem number_token_run_witness :
    blank [] = true ∧ '1'.isDigit = true ∧
    read_next (InputStream.create ([] ++ '1' :: "2.5.x".toList)) =
      some (.ok
        (some { type := .num, value := .num (parseFloat (number_run false ('1' :: "2.5.x".toList))),
                info := { line := line_of [], col := col_of [] } })
        ((InputStream.create ([] ++ '1' :: "2.5.x".toList)).advance
          (([] : List Char).length + (number_run false ('1' :: "2.5.x".toList)).length))) ∧
    (∀ rest : List Char,
      '1' :: "2.5.x".toList = number_run false ('1' :: "2.5.x".toList) ++ '.' :: rest →
      read_next ((InputStream.create ([] ++ '1' :: "2.5.x".toList)).advance
          (([] : List Char).length + (number_run false ('1' :: "2.5.x".toList)).length)) =
        some (.ok
          (some { type := .op, value := .str (('.' :: rest).takeWhile is_op_char),
                  info := create_info ((InputStream.create ([] ++ '1' :: "2.5.x".toList)).advance
                    (([] : List Char).length + (number_run false ('1' :: "2.5.x".toList)).length)) })
          ((InputStream.create ([] ++ '1' :: "2.5.x".toList)).advance
            (([] : List Char).length + (number_run false ('1' :: "2.5.x".toList)).length +
              (('.' :: rest).takeWhile is_op_char).length)))) ∧
    read_all 4 (InputStream.create "1.2.3".toList) =
      some (.ok
        [{ type := .num, value := .num ⟨12, 1⟩, info := { line := 0, col := 0 } },
         { type := .op, value := .str ".".toList, info := { line := 0, col := 3 } },
         { type := .num, value := .num ⟨3, 0⟩, info := { line := 0, col := 4 } }]
        { input := "1.2.3".toList, pos := 5, line := 0, col := 5 }) :=
  ⟨by decide, by decide, number_token_run [] "2.5.x".toList '1' (by decide) (by decide)⟩

/-! ## Strings -/

theorem unescape_cons_plain (c : Char) (rest : List Char) (hc : c ≠ '\\') :
    unescape (c :: rest) = c :: unescape rest := by
  rw [unescape.eq_def]
  simp only [hc, if_false]
theorem no_bare_quote_cons_plain (q c : Char) (rest : List Char) (hc : c ≠ '\\') :
    no_bare_quote q (c :: rest) = (c != q && no_bare_quote q rest) := by
  rw [no_bare_quote.eq_def]
  simp only [hc, if_false]
theorem ends_in_escape_cons_plain (c : Char) (rest : List Char) (hc : c ≠ '\\') :
    ends_in_escape (c :: rest) = ends_in_escape rest := by
  rw [ends_in_escape.eq_def]
  simp only [hc, if_false]
theorem unescape_escape (d : Char) (rest : List Char) :
    unescape ('\\' :: d :: rest) = (if d = 'n' then '\n' else d) :: unescape rest := by
  rw [unescape.eq_def]
  simp

theorem InputStream.next_advance (s : InputStream) (k : Nat) :
    s.next.2.advance k = s.advance (k + 1) := by
  simp [InputStream.advance, Function.iterate_succ_apply]

theorem InputStream.eof_of_drop_cons {s : InputStream} {c : Char} {rest : List Char}
    (h : s.input.drop s.pos = c :: rest) : s.eof = false ∧ s.next.1 = some c ∧
      s.next.2.input.drop s.next.2.pos = rest := by
  have hp : s.peek = some c := by rw [InputStream.peek_eq_head, h]; rfl
  refine ⟨by simp [InputStream.eof, hp], by rw [InputStream.next_fst, hp], ?_⟩
  rw [InputStream.next_input, InputStream.next_pos]
  exact drop_succ_of_drop_cons h

theorem InputStream.eof_of_drop_nil {s : InputStream} (h : s.input.drop s.pos = []) :
    s.eof = true := by
  have hp : s.peek = none := by rw [InputStream.peek_eq_head, h]; rfl
  simp [InputStream.eof, hp]

/-- One iteration of the string loop on a character that is neither a backslash nor the
closing quote. -/
theorem read_escaped_loop_plain (end_ch : Option Char) (fuel : Nat) (str : List Char)
    (s : InputStream) (c : Char) (rest : List Char) (hdrop : s.input.drop s.pos = c :: rest)
    (h1 : c ≠ '\\') (h2 : some c ≠ end_ch) :
    read_escaped_loop end_ch (fuel + 1) false str s
      = read_escaped_loop end_ch fuel false (str ++ [c]) s.next.2 := by
  obtain ⟨he, hn, _⟩ := InputStream.eof_of_drop_cons hdrop
  rw [read_escaped_loop]
  simp [he, hn, h1, h2]

/-- Two iterations of the string loop on a backslash and the character after it. -/
theorem read_escaped_loop_escape (end_ch : Option Char) (fuel : Nat) (str : List Char)
    (s : InputStream) (d : Char) (rest : List Char)
    (hdrop : s.input.drop s.pos = '\\' :: d :: rest) :
    read_escaped_loop end_ch (fuel + 2) false str s
      = read_escaped_loop end_ch fuel false (str ++ [if d = 'n' then '\n' else d])
          s.next.2.next.2 := by
  obtain ⟨he, hn, hdrop1⟩ := InputStream.eof_of_drop_cons hdrop
  obtain ⟨he1, hn1, _⟩ := InputStream.eof_of_drop_cons hdrop1
  rw [read_escaped_loop]
  simp only [he, hn, Bool.false_eq_true, if_false, if_true]
  rw [read_escaped_loop]
  simp only [he1, hn1, Bool.false_eq_true, if_false, if_true, Option.some.injEq]
  by_cases hd : d = 'n'
  · simp [hd]
  · simp [hd]

/-- The string loop on a body closed by the quote `q`. -/
theorem read_escaped_loop_closed (q : Char) (hq : q ≠ '\\') :
    ∀ (n : Nat) (body tail : List Char) (s : InputStream) (str : List Char) (fuel : Nat),
      body.length ≤ n → s.input.drop s.pos = body ++ q :: tail →
      no_bare_quote q body = true → ends_in_escape body = false → body.length + 1 ≤ fuel →
      read_escaped_loop (some q) fuel false str s
        = (str ++ unescape body, s.advance (body.length + 1)) := by
  intro n
  induction n with
  | zero =>
    intro body tail s str fuel hn hdrop _ _ hfuel
    have hb : body = [] := List.length_eq_zero.1 (by omega)
    subst hb
    obtain ⟨m, rfl⟩ : ∃ m, fuel = m + 1 := ⟨fuel - 1, by simp at hfuel; omega⟩
    obtain ⟨he, hn1, _⟩ := InputStream.eof_of_drop_cons hdrop
    rw [read_escaped_loop]
    simp [he, hn1, hq, unescape, InputStream.advance]
  | succ n ih =>
    intro body tail s str fuel hn hdrop hnq hesc hfuel
    match body, hn, hdrop, hnq, hesc, hfuel with
    | [], _, hdrop, _, _, hfuel =>
      obtain ⟨m, rfl⟩ : ∃ m, fuel = m + 1 := ⟨fuel - 1, by simp at hfuel; omega⟩
      obtain ⟨he, hn1, _⟩ := InputStream.eof_of_drop_cons hdrop
      rw [read_escaped_loop]
      simp [he, hn1, hq, unescape, InputStream.advance]
    | c :: rest, hn, hdrop, hnq, hesc, hfuel =>
      by_cases hc : c = '\\'
      · subst hc
        match rest, hn, hdrop, hnq, hesc, hfuel with
        | [], _, _, _, hesc, _ => simp [ends_in_escape] at hesc
        | d :: rest1, hn, hdrop, hnq, hesc, hfuel =>
          obtain ⟨m, rfl⟩ : ∃ m, fuel = m + 2 := ⟨fuel - 2, by simp at hfuel; omega⟩
          obtain ⟨_, _, hdrop1⟩ := InputStream.eof_of_drop_cons hdrop
          obtain ⟨_, _, hdrop2⟩ := InputStream.eof_of_drop_cons hdrop1
          rw [read_escaped_loop_escape _ _ _ _ d _ hdrop]
          rw [ih rest1 tail _ _ m (by simp at hn; omega) hdrop2
            (by simpa [no_bare_quote] using hnq) (by simpa [ends_in_escape] using hesc)
            (by simp at hfuel; omega)]
          rw [InputStream.next_advance, InputStream.next_advance]
          simp [unescape]
      · rw [no_bare_quote_cons_plain q c rest hc, Bool.and_eq_true, bne_iff_ne] at hnq
        rw [ends_in_escape_cons_plain c rest hc] at hesc
        obtain ⟨m, rfl⟩ : ∃ m, fuel = m + 1 := ⟨fuel - 1, by simp at hfuel; omega⟩
        obtain ⟨_, _, hdrop1⟩ := InputStream.eof_of_drop_cons hdrop
        rw [read_escaped_loop_plain _ _ _ _ c _ hdrop hc (by simpa using hnq.1)]
        rw [ih rest tail _ _ m (by simp at hn; omega) hdrop1 hnq.2 hesc
          (by simp at hfuel; omega)]
        rw [InputStream.next_advance, unescape_cons_plain c rest hc]
        simp

/-- The string loop on a text that has no closing quote `q`: it runs to the end of the
input. -/
theorem read_escaped_loop_open (q : Char) :
    ∀ (n : Nat) (body : List Char) (s : InputStream) (str : List Char) (fuel : Nat),
      body.length ≤ n → s.input.drop s.pos = body →
      no_bare_quote q body = true → body.length ≤ fuel →
      read_escaped_loop (some q) fuel false str s
        = (str ++ unescape body, s.advance body.length) := by
  intro n
  induction n with
  | zero =>
    intro body s str fuel hn hdrop _ _
    have hb : body = [] := List.length_eq_zero.1 (by omega)
    subst hb
    have he := InputStream.eof_of_drop_nil hdrop
    cases fuel <;> simp [read_escaped_loop, he, unescape, InputStream.advance]
  | succ n ih =>
    intro body s str fuel hn hdrop hnq hfuel
    match body, hn, hdrop, hnq, hfuel with
    | [], _, hdrop, _, _ =>
      have he := InputStream.eof_of_drop_nil hdrop
      cases fuel <;> simp [read_escaped_loop, he, unescape, InputStream.advance]
    | c :: rest, hn, hdrop, hnq, hfuel =>
      by_cases hc : c = '\\'
      · subst hc
        match rest, hn, hdrop, hnq, hfuel with
        | [], _, hdrop, _, hfuel =>
          obtain ⟨m, rfl⟩ : ∃ m, fuel = m + 1 := ⟨fuel - 1, by simp at hfuel; omega⟩
          obtain ⟨he, hn1, hdrop1⟩ := InputStream.eof_of_drop_cons hdrop
          have he1 := InputStream.eof_of_drop_nil hdrop1
          rw [read_escaped_loop]
          simp only [he, hn1, Bool.false_eq_true, if_false, if_true]
          cases m <;> simp [read_escaped_loop, he1, unescape, InputStream.advance]
        | d :: rest1, hn, hdrop, hnq, hfuel =>
          obtain ⟨m, rfl⟩ : ∃ m, fuel = m + 2 := ⟨fuel - 2, by simp at hfuel; omega⟩
          obtain ⟨_, _, hdrop1⟩ := InputStream.eof_of_drop_cons hdrop
          obtain ⟨_, _, hdrop2⟩ := InputStream.eof_of_drop_cons hdrop1
          rw [read_escaped_loop_escape _ _ _ _ d _ hdrop]
          rw [ih rest1 _ _ m (by simp at hn; omega) hdrop2
            (by simpa [no_bare_quote] using hnq) (by simp at hfuel; omega)]
          rw [InputStream.next_advance, InputStream.next_advance]
          simp [unescape]
      · rw [no_bare_quote_cons_plain q c rest hc, Bool.and_eq_true, bne_iff_ne] at hnq
        obtain ⟨m, rfl⟩ : ∃ m, fuel = m + 1 := ⟨fuel - 1, by simp at hfuel; omega⟩
        obtain ⟨_, _, hdrop1⟩ := InputStream.eof_of_drop_cons hdrop
        rw [read_escaped_loop_plain _ _ _ _ c _ hdrop hc (by simpa using hnq.1)]
        rw [ih rest _ _ m (by simp at hn; omega) hdrop1 hnq.2 (by simp at hfuel; omega)]
        rw [InputStream.next_advance, unescape_cons_plain c rest hc]
        simp

theorem drop_length_le {s : InputStream} {l : List Char} (h : s.input.drop s.pos = l) :
    l.length ≤ s.input.length - s.pos := by
  have := congrArg List.length h
  simp at this; omega

/-- The function `read_string` on a cursor that stands before a literal closed by its
quote. -/
theorem read_string_closed (s : InputStream) (q : Char) (body tail : List Char)
    (hq : q ∈ quotes) (hdrop : s.input.drop s.pos = q :: (body ++ q :: tail))
    (hnq : no_bare_quote q body = true) (hesc : ends_in_escape body = false) :
    read_string s =
      ({ type := if q = Char.ofNat 96 then .es6_string else .string,
         value := .str (unescape body) }, s.advance (body.length + 2)) := by
  obtain ⟨_, hqb, _, _, _⟩ := quote_classes q hq
  have hp : s.peek = some q := by rw [InputStream.peek_eq_head, hdrop]; rfl
  obtain ⟨_, _, hdrop1⟩ := InputStream.eof_of_drop_cons hdrop
  have hlen := drop_length_le hdrop1
  have h := read_escaped_loop_closed q hqb body.length body tail s.next.2 []
    (s.next.2.input.length - s.next.2.pos) (Nat.le_refl _) hdrop1 hnq hesc
    (by simp at hlen; omega)
  simp only [read_string, read_escaped, hp, h, Option.some.injEq, List.nil_append,
    InputStream.next_advance]

/-- The function `read_string` on a cursor that stands before a literal that is not
closed. -/
theorem read_string_open (s : InputStream) (q : Char) (body : List Char)
    (hdrop : s.input.drop s.pos = q :: body) (hnq : no_bare_quote q body = true) :
    read_string s =
      ({ type := if q = Char.ofNat 96 then .es6_string else .string,
         value := .str (unescape body) }, s.advance (body.length + 1)) := by
  have hp : s.peek = some q := by rw [InputStream.peek_eq_head, hdrop]; rfl
  obtain ⟨_, _, hdrop1⟩ := InputStream.eof_of_drop_cons hdrop
  have hlen := drop_length_le hdrop1
  have h := read_escaped_loop_open q body.length body s.next.2 []
    (s.next.2.input.length - s.next.2.pos) (Nat.le_refl _) hdrop1 hnq hlen
  simp only [read_string, read_escaped, hp, h, Option.some.injEq, List.nil_append,
    InputStream.next_advance]

/-- C13: for a quote character `q` and a literal `q body q` whose closing quote is the
first `q` outside a backslash escape, found after the whitespace `ws` and followed by any
text, `read_next` returns a token of kind `es6_string` when `q` is the backtick and
`string` otherwise, whose value is `body` with its escapes decoded (backslash and `n`: a
newline; backslash and another character, `q` and the backslash included: that character),
and the cursor stops after the closing quote.  The literal made of
`a`, backslash, `n`, `b`, backslash, double quote, `c`, backslash, backslash between double
quotes has the value `a`, newline, `b`, double quote, `c`, backslash. -/
theorem string_literal_value (ws body tail : List Char) (q : Char) (hws : blank ws = true)
    (hq : q ∈ quotes) (hnq : no_bare_quote q body = true)
    (hesc : ends_in_escape body = false) :
    read_next (InputStream.create (ws ++ q :: (body ++ q :: tail))) =
      some (.ok
        (some { type := if q = Char.ofNat 96 then .es6_string else .string,
                value := .str (unescape body),
                info := { line := line_of ws, col := col_of ws } })
        ((InputStream.create (ws ++ q :: (body ++ q :: tail))).advance
          (ws.length + (body.length + 2)))) ∧
    unescape ['a', '\\', 'n', 'b', '\\', Char.ofNat 34, 'c', '\\', '\\'] =
      ['a', '\n', 'b', Char.ofNat 34, 'c', '\\'] ∧
    read_next (InputStream.create
        [Char.ofNat 34, 'a', '\\', 'n', 'b', '\\', Char.ofNat 34, 'c', '\\', '\\',
         Char.ofNat 34]) =
      some (.ok
        (some { type := .string, value := .str ['a', '\n', 'b', Char.ofNat 34, 'c', '\\'],
                info := { line := 0, col := 0 } })
        (InputStream.mk [Char.ofNat 34, 'a', '\\', 'n', 'b', '\\', Char.ofNat 34, 'c', '\\', '\\',
         Char.ofNat 34] 11 0 11)) := by
  obtain ⟨hne, _, hnw, hop, hstr⟩ := quote_classes q hq
  obtain ⟨hw, hadv⟩ := after_whitespace ws (q :: (body ++ q :: tail)) hws (by
    intro d hd
    simp only [List.head?_cons, Option.some.injEq] at hd
    subst hd; exact hnw)
  have hp : InputStream.peek
      (InputStream.mk (ws ++ q :: (body ++ q :: tail)) ws.length (line_of ws) (col_of ws))
      = some q := by
    rw [InputStream.peek_eq_head]; simp
  have hdrop : (InputStream.mk (ws ++ q :: (body ++ q :: tail)) ws.length (line_of ws)
      (col_of ws)).input.drop (InputStream.mk (ws ++ q :: (body ++ q :: tail)) ws.length
      (line_of ws) (col_of ws)).pos = q :: (body ++ q :: tail) := by
    simp
  refine ⟨?_, by decide, by decide⟩
  rw [read_next_string _ _ q hw hp (not_comment_start_of_ne _ _ hne) hop hstr,
    read_string_closed _ q body tail hq hdrop hnq hesc, ← hadv, InputStream.advance_add]
  simp [RawToken.with_info, create_info, InputStream.get_line, InputStream.get_col, hadv]

/-- The single-quoted literal with an escaped quote in the source `'a` backslash `'b' + 1`. -/
theorem string_literal_value_witness :
    blank [] = true ∧ Char.ofNat 39 ∈ quotes ∧
    no_bare_quote (Char.ofNat 39) ['a', '\\', Char.ofNat 39, 'b'] = true ∧
    ends_in_escape ['a', '\\', Char.ofNat 39, 'b'] = false ∧
    read_next (InputStream.create
        ([] ++ Char.ofNat 39 :: (['a', '\\', Char.ofNat 39, 'b'] ++ Char.ofNat 39 :: " + 1".toList))) =
      some (.ok
        (some { type := if Char.ofNat 39 = Char.ofNat 96 then .es6_string else .string,
                value := .str (unescape ['a', '\\', Char.ofNat 39, 'b']),
                info := { line := line_of [], col := col_of [] } })
        ((InputStream.create
            ([] ++ Char.ofNat 39 :: (['a', '\\', Char.ofNat 39, 'b'] ++ Char.ofNat 39 :: " + 1".toList))).advance
          (([] : List Char).length + (['a', '\\', Char.ofNat 39, 'b'].length + 2)))) ∧
    unescape ['a', '\\', 'n', 'b', '\\', Char.ofNat 34, 'c', '\\', '\\'] =
      ['a', '\n', 'b', Char.ofNat 34, 'c', '\\'] ∧
    read_next (InputStream.create
        [Char.ofNat 34, 'a', '\\', 'n', 'b', '\\', Char.ofNat 34, 'c', '\\', '\\',
         Char.ofNat 34]) =
      some (.ok
        (some { type := .string, value := .str ['a', '\n', 'b', Char.ofNat 34, 'c', '\\'],
                info := { line := 0, col := 0 } })
        (InputStream.mk [Char.ofNat 34, 'a', '\\', 'n', 'b', '\\', Char.ofNat 34, 'c', '\\', '\\',
         Char.ofNat 34] 11 0 11)) :=
  ⟨by decide, by decide, by decide, by decide,
    string_literal_value [] ['a', '\\', Char.ofNat 39, 'b'] " + 1".toList (Char.ofNat 39)
      (by decide) (by decide) (by decide) (by decide)⟩

/-- C14: when the first character after the whitespace `ws` is a quote character `q` and the
rest of the source has no `q` outside a backslash escape, `read_next` throws nothing: it
returns a `string` token (`es6_string` for the backtick) whose value is the rest of the
source with its escapes decoded, the cursor is then at end of input, and the next
`read_next` returns `null`. -/
theorem unterminated_string (ws body : List Char) (q : Char) (hws : blank ws = true)
    (hq : q ∈ quotes) (hnq : no_bare_quote q body = true) :
    read_next (InputStream.create (ws ++ q :: body)) =
      some (.ok
        (some { type := if q = Char.ofNat 96 then .es6_string else .string,
                value := .str (unescape body),
                info := { line := line_of ws, col := col_of ws } })
        ((InputStream.create (ws ++ q :: body)).advance (ws.length + (body.length + 1)))) ∧
    ((InputStream.create (ws ++ q :: body)).advance (ws.length + (body.length + 1))).pos
      = (ws ++ q :: body).length ∧
    ((InputStream.create (ws ++ q :: body)).advance (ws.length + (body.length + 1))).eof
      = true ∧
    read_next ((InputStream.create (ws ++ q :: body)).advance (ws.length + (body.length + 1))) =
      some (.ok none
        ((InputStream.create (ws ++ q :: body)).advance (ws.length + (body.length + 1)))) := by
  obtain ⟨hne, _, hnw, hop, hstr⟩ := quote_classes q hq
  obtain ⟨hw, hadv⟩ := after_whitespace ws (q :: body) hws (by
    intro d hd
    simp only [List.head?_cons, Option.some.injEq] at hd
    subst hd; exact hnw)
  have hp : InputStream.peek (InputStream.mk (ws ++ q :: body) ws.length (line_of ws) (col_of ws))
      = some q := by
    rw [InputStream.peek_eq_head]; simp
  have hdrop : (InputStream.mk (ws ++ q :: body) ws.length (line_of ws)
      (col_of ws)).input.drop (InputStream.mk (ws ++ q :: body) ws.length
      (line_of ws) (col_of ws)).pos = q :: body := by
    simp
  have hpeek : ((InputStream.create (ws ++ q :: body)).advance
      (ws.length + (body.length + 1))).peek = none := by
    rw [InputStream.advance_peek]
    simp [InputStream.create]
  refine ⟨?_, ?_, by simp [InputStream.eof, hpeek], read_next_at_eof _ hpeek⟩
  · rw [read_next_string _ _ q hw hp (not_comment_start_of_ne _ _ hne) hop hstr,
      read_string_open _ q body hdrop hnq, ← hadv, InputStream.advance_add]
    simp [RawToken.with_info, create_info, InputStream.get_line, InputStream.get_col, hadv]
  · rw [InputStream.advance_pos]
    simp [InputStream.create]

/-- The unterminated backtick literal of the source made of a space, a backtick, `ab` and a
backslash. -/
theorem unterminated_string_witness :
    blank " ".toList = true ∧ Char.ofNat 96 ∈ quotes ∧
    no_bare_quote (Char.ofNat 96) ['a', 'b', '\\'] = true ∧
    read_next (InputStream.create (" ".toList ++ Char.ofNat 96 :: ['a', 'b', '\\'])) =
      some (.ok
        (some { type := if Char.ofNat 96 = Char.ofNat 96 then .es6_string else .string,
                value := .str (unescape ['a', 'b', '\\']),
                info := { line := line_of " ".toList, col := col_of " ".toList } })
        ((InputStream.create (" ".toList ++ Char.ofNat 96 :: ['a', 'b', '\\'])).advance
          (" ".toList.length + (['a', 'b', '\\'].length + 1)))) ∧
    ((InputStream.create (" ".toList ++ Char.ofNat 96 :: ['a', 'b', '\\'])).advance
        (" ".toList.length + (['a', 'b', '\\'].length + 1))).pos
      = (" ".toList ++ Char.ofNat 96 :: ['a', 'b', '\\']).length ∧
    ((InputStream.create (" ".toList ++ Char.ofNat 96 :: ['a', 'b', '\\'])).advance
        (" ".toList.length + (['a', 'b', '\\'].length + 1))).eof = true ∧
    read_next ((InputStream.create (" ".toList ++ Char.ofNat 96 :: ['a', 'b', '\\'])).advance
        (" ".toList.length + (['a', 'b', '\\'].length + 1))) =
      some (.ok none
        ((InputStream.create (" ".toList ++ Char.ofNat 96 :: ['a', 'b', '\\'])).advance
          (" ".toList.length + (['a', 'b', '\\'].length + 1)))) :=
  ⟨by decide, by decide, by decide,
    unterminated_string " ".toList ['a', 'b', '\\'] (Char.ofNat 96) (by decide) (by decide)
      (by decide)⟩

/-! ## The cursor only moves on -/

theorem Info.le_refl (a : Info) : a.le a = true := by
  simp [Info.le]

theorem Info.le_trans {a b c : Info} (h1 : a.le b = true) (h2 : b.le c = true) :
    a.le c = true := by
  simp only [Info.le, Bool.or_eq_true, decide_eq_true_eq, Bool.and_eq_true, beq_iff_eq] at *
  omega

theorem InputStream.reaches_refl (s : InputStream) : s.reaches s :=
  ⟨rfl, Nat.le_refl _, Info.le_refl _⟩

theorem InputStream.reaches_trans {a b c : InputStream} (h1 : a.reaches b) (h2 : b.reaches c) :
    a.reaches c :=
  ⟨h2.1.trans h1.1, Nat.le_trans h1.2.1 h2.2.1, Info.le_trans h1.2.2 h2.2.2⟩

theorem InputStream.reaches_next (s : InputStream) : s.reaches s.next.2 := by
  refine ⟨InputStream.next_input s, by rw [InputStream.next_pos]; omega, ?_⟩
  simp only [InputStream.next, create_info, InputStream.get_line, InputStream.get_col, Info.le]
  split <;> simp

theorem read_while_loop_reaches {σ : Type} (cond_func : σ → InputStream → Char → Bool × σ) :
    ∀ (fuel : Nat) (st : σ) (s : InputStream) (buffer : List Char),
      s.reaches (read_while_loop cond_func fuel st s buffer).2.2 := by
  intro fuel
  induction fuel with
  | zero => intro st s buffer; exact InputStream.reaches_refl s
  | succ n ih =>
    intro st s buffer
    rw [read_while_loop]
    cases hp : s.peek with
    | none => exact InputStream.reaches_refl s
    | some ch =>
      simp only
      rcases hc : cond_func st s ch with ⟨b, st1⟩
      cases b with
      | false => exact InputStream.reaches_refl s
      | true =>
        exact InputStream.reaches_trans (InputStream.reaches_next s) (ih st1 s.next.2 _)

theorem read_while_reaches {σ : Type} (cond_func : σ → InputStream → Char → Bool × σ) (st : σ)
    (s : InputStream) : s.reaches (read_while cond_func st s).2.2 :=
  read_while_loop_reaches cond_func _ st s []

/-- When the callback accepts the character under the cursor, `read_while` consumes it. -/
theorem read_while_pos_lt {σ : Type} (cond_func : σ → InputStream → Char → Bool × σ) (st : σ)
    (s : InputStream) (ch : Char) (hp : s.peek = some ch) (hc : (cond_func st s ch).1 = true) :
    s.pos < (read_while cond_func st s).2.2.pos := by
  have hlt := InputStream.pos_lt_of_peek hp
  obtain ⟨n, hn⟩ : ∃ n, s.input.length - s.pos = n + 1 := ⟨s.input.length - s.pos - 1, by omega⟩
  rw [read_while, hn, read_while_loop]
  simp only [hp]
  rcases hcc : cond_func st s ch with ⟨b, st1⟩
  rw [hcc] at hc
  simp only at hc
  subst hc
  simp only
  have := (read_while_loop_reaches cond_func n st1 s.next.2 ([] ++ s.next.1.toList)).2.1
  rw [InputStream.next_pos] at this
  omega

theorem read_escaped_loop_reaches (end_ch : Option Char) :
    ∀ (fuel : Nat) (escaped : Bool) (str : List Char) (s : InputStream),
      s.reaches (read_escaped_loop end_ch fuel escaped str s).2 := by
  intro fuel
  induction fuel with
  | zero => intro escaped str s; exact InputStream.reaches_refl s
  | succ n ih =>
    intro escaped str s
    rw [read_escaped_loop]
    have hn := InputStream.reaches_next s
    simp only
    split_ifs
    · exact InputStream.reaches_refl s
    · exact InputStream.reaches_trans hn (ih _ _ _)
    · exact InputStream.reaches_trans hn (ih _ _ _)
    · exact InputStream.reaches_trans hn (ih _ _ _)
    · exact hn
    · exact InputStream.reaches_trans hn (ih _ _ _)

theorem skip_comment_reaches (s : InputStream) : s.reaches (skip_comment s) := by
  simp only [skip_comment]
  split
  · exact InputStream.reaches_trans (InputStream.reaches_next s)
      (InputStream.reaches_trans (read_while_reaches _ _ _) (InputStream.reaches_next _))
  · exact InputStream.reaches_trans (InputStream.reaches_next s)
      (InputStream.reaches_trans (read_while_reaches _ _ _)
        (InputStream.reaches_trans (InputStream.reaches_next _) (InputStream.reaches_next _)))

theorem read_op_reaches (s : InputStream) (ch : Char) (hp : s.peek = some ch)
    (hc : is_op_char ch = true) : s.reaches (read_op s).2 ∧ s.pos < (read_op s).2.pos :=
  ⟨read_while_reaches _ _ _, read_while_pos_lt _ _ s ch hp (by simpa [char_cond] using hc)⟩

theorem read_string_reaches (s : InputStream) :
    s.reaches (read_string s).2 ∧ s.pos < (read_string s).2.pos := by
  have h1 := InputStream.reaches_next s
  have h2 := read_escaped_loop_reaches s.peek (s.next.2.input.length - s.next.2.pos) false []
    s.next.2
  refine ⟨InputStream.reaches_trans h1 h2, ?_⟩
  have h3 := h2.2.1
  have h4 := InputStream.next_pos s
  simp only [read_string, read_escaped]
  omega

theorem read_id_or_keyword_reaches (s : InputStream) (ch : Char) (hp : s.peek = some ch)
    (hc : is_id_start ch = true) :
    s.reaches (read_id_or_keyword s).2 ∧ s.pos < (read_id_or_keyword s).2.pos := by
  have h1 := read_while_reaches (char_cond is_id) () s
  have h2 := read_while_pos_lt (char_cond is_id) () s ch hp (by simp [char_cond, is_id, hc])
  simp only [read_id_or_keyword]
  split
  · exact ⟨h1, h2⟩
  · have h3 := read_while_reaches (char_cond is_id) () (read_while (char_cond is_id) () s).2.2
    exact ⟨InputStream.reaches_trans h1 h3, Nat.lt_of_lt_of_le h2 h3.2.1⟩

theorem read_punc_reaches (s : InputStream) :
    s.reaches (read_punc s).2 ∧ s.pos < (read_punc s).2.pos := by
  refine ⟨InputStream.reaches_next s, ?_⟩
  simp only [read_punc, InputStream.next_pos]
  omega

theorem read_number_reaches (s : InputStream) (ch : Char) (hp : s.peek = some ch)
    (hc : is_number_start ch = true) :
    s.reaches (read_number s).2 ∧ s.pos < (read_number s).2.pos := by
  refine ⟨read_while_reaches _ _ _, read_while_pos_lt _ _ s ch hp ?_⟩
  have hd := isDigit_of_is_number_start ch hc
  have hne : ch ≠ '.' := by
    rintro rfl
    revert hd; decide
  simp [number_cond, hne, hc]

/-- A token returned by `read_next`: the cursor has moved on by one character at least, and
the position of the token lies between the cursor before and the cursor after. -/
theorem read_next_fuel_token :
    ∀ (fuel : Nat) (s s1 : InputStream) (t : Token),
      read_next_fuel fuel s = some (.ok (some t) s1) →
      s.reaches s1 ∧ s.pos < s1.pos ∧ s.pos < s.input.length ∧
        (create_info s).le t.info = true ∧ t.info.le (create_info s1) = true := by
  intro fuel
  induction fuel with
  | zero => intro s s1 t h; simp [read_next_fuel] at h
  | succ n ih =>
    intro s s1 t h
    rw [read_next_fuel_succ] at h
    have hws := read_while_reaches (char_cond is_whitespace) () s
    generalize (read_while (char_cond is_whitespace) () s).2.2 = w at h hws
    simp only at h
    cases hp : w.peek with
    | none => simp [hp] at h
    | some ch =>
      have hlt : s.pos < s.input.length := by
        have := InputStream.pos_lt_of_peek hp
        rw [hws.1] at this
        exact Nat.lt_of_le_of_lt hws.2.1 this
      have key : ∀ (r : RawToken) (w1 : InputStream), w.reaches w1 → w.pos < w1.pos →
          some (Outcome.ok (some (r.with_info (create_info w))) w1)
            = some (Outcome.ok (some t) s1) →
          s.reaches s1 ∧ s.pos < s1.pos ∧ s.pos < s.input.length ∧
            (create_info s).le t.info = true ∧ t.info.le (create_info s1) = true := by
        intro r w1 hr hpos heq
        simp only [Option.some.injEq, Outcome.ok.injEq] at heq
        obtain ⟨h1, h2⟩ := heq
        subst h1 h2
        exact ⟨InputStream.reaches_trans hws hr, Nat.lt_of_le_of_lt hws.2.1 hpos, hlt,
          hws.2.2, hr.2.2⟩
      simp only [hp] at h
      by_cases hc : is_comment_start w ch = true
      · simp only [hc, if_true] at h
        have hsk := skip_comment_reaches w
        have hsk2 := (skip_comment_input w).2
        cases hr : read_next_fuel n (skip_comment w) with
        | none => simp [hr] at h
        | some r =>
          rcases r with ⟨_ | t2, s2⟩ | ⟨e, s2⟩
          · simp [hr] at h
          · simp only [hr, Option.some.injEq, Outcome.ok.injEq] at h
            obtain ⟨h1, h2⟩ := h
            subst h1 h2
            obtain ⟨g1, g2, _, g4, g5⟩ := ih _ _ _ hr
            refine ⟨InputStream.reaches_trans hws (InputStream.reaches_trans hsk g1), ?_, hlt,
              hws.2.2, ?_⟩
            · have := hws.2.1
              omega
            · exact Info.le_trans hsk.2.2 (Info.le_trans g4 g5)
          · simp [hr] at h
      · simp only [hc, Bool.false_eq_true, if_false] at h
        by_cases hop : is_op_char ch = true
        · simp only [hop, if_true] at h
          exact key _ _ (read_op_reaches w ch hp hop).1 (read_op_reaches w ch hp hop).2 h
        · simp only [hop, Bool.false_eq_true, if_false] at h
          by_cases hstr : is_string_start ch = true
          · simp only [hstr, if_true] at h
            exact key _ _ (read_string_reaches w).1 (read_string_reaches w).2 h
          · simp only [hstr, Bool.false_eq_true, if_false] at h
            by_cases hid : is_id_start ch = true
            · simp only [hid, if_true] at h
              exact key _ _ (read_id_or_keyword_reaches w ch hp hid).1
                (read_id_or_keyword_reaches w ch hp hid).2 h
            · simp only [hid, Bool.false_eq_true, if_false] at h
              by_cases hpu : is_punc ch = true
              · simp only [hpu, if_true] at h
                exact key _ _ (read_punc_reaches w).1 (read_punc_reaches w).2 h
              · simp only [hpu, Bool.false_eq_true, if_false] at h
                by_cases hnum : is_number_start ch = true
                · simp only [hnum, if_true] at h
                  exact key _ _ (read_number_reaches w ch hp hnum).1
                    (read_number_reaches w ch hp hnum).2 h
                · simp [hnum] at h

/-- The tokens of successive `read_next` calls: their positions never go back, and the first
is not before the cursor. -/
theorem read_all_sorted :
    ∀ (fuel : Nat) (s s1 : InputStream) (toks : List Token),
      read_all fuel s = some (.ok toks s1) →
      positions_sorted toks = true ∧
        ∀ t : Token, toks.head? = some t → (create_info s).le t.info = true := by
  intro fuel
  induction fuel with
  | zero => intro s s1 toks h; simp [read_all] at h
  | succ n ih =>
    intro s s1 toks h
    rw [read_all] at h
    cases hr : read_next s with
    | none => simp [hr] at h
    | some r =>
      rcases r with ⟨_ | t, s2⟩ | ⟨e, s2⟩
      · simp only [hr, Option.some.injEq, Outcome.ok.injEq] at h
        rw [← h.1]
        simp [positions_sorted]
      · simp only [hr] at h
        cases hra : read_all n s2 with
        | none => simp [hra] at h
        | some ra =>
          rcases ra with ⟨toks2, s3⟩ | ⟨e, s3⟩
          · simp only [hra, Option.some.injEq, Outcome.ok.injEq] at h
            obtain ⟨h1, h2⟩ := h
            subst h1 h2
            obtain ⟨_, _, _, g4, g5⟩ := read_next_fuel_token _ _ _ _ hr
            obtain ⟨i1, i2⟩ := ih _ _ _ hra
            refine ⟨?_, by intro t2 ht2; simp at ht2; subst ht2; exact g4⟩
            cases toks2 with
            | nil => rfl
            | cons t2 rest =>
              simp only [positions_sorted, Bool.and_eq_true]
              exact ⟨Info.le_trans g5 (i2 t2 rfl), i1⟩
          · simp [hra] at h
      · simp [hr] at h

/-- The tokens of successive `read_next` calls, whether or not a later call throws: their
positions never go back, and the first is not before the cursor. -/
theorem read_tokens_sorted :
    ∀ (n : Nat) (s : InputStream),
      positions_sorted (read_tokens n s) = true ∧
        ∀ t : Token, (read_tokens n s).head? = some t → (create_info s).le t.info = true := by
  intro n
  induction n with
  | zero => intro s; simp [read_tokens, positions_sorted]
  | succ n ih =>
    intro s
    rw [read_tokens]
    cases hr : read_next s with
    | none => simp [positions_sorted]
    | some r =>
      rcases r with ⟨_ | t, s2⟩ | ⟨e, s2⟩
      · simp [positions_sorted]
      · simp only
        obtain ⟨_, _, _, g4, g5⟩ := read_next_fuel_token _ _ _ _ hr
        obtain ⟨i1, i2⟩ := ih s2
        refine ⟨?_, by intro t2 ht2; simp at ht2; subst ht2; exact g4⟩
        cases hrt : read_tokens n s2 with
        | nil => rfl
        | cons t2 rest =>
          rw [hrt] at i1 i2
          simp only [positions_sorted, Bool.and_eq_true]
          exact ⟨Info.le_trans g5 (i2 t2 rfl), i1⟩
      · simp [positions_sorted]

/-- C11: when `read_next` returns the token `t1` and the next call returns the token `t2`,
the position of `t1` is not after that of `t2`, in the order by line, then by column; and
from every cursor the positions of the tokens that successive `read_next` calls return
never go back, whatever a later call does. -/
theorem position_monotone (s s1 s2 : InputStream) (t1 t2 : Token)
    (h1 : read_next s = some (.ok (some t1) s1)) (h2 : read_next s1 = some (.ok (some t2) s2)) :
    t1.info.le t2.info = true ∧
    ∀ (n : Nat) (s0 : InputStream), positions_sorted (read_tokens n s0) = true := by
  obtain ⟨_, _, _, _, g5⟩ := read_next_fuel_token _ _ _ _ h1
  obtain ⟨_, _, _, k4, _⟩ := read_next_fuel_token _ _ _ _ h2
  exact ⟨Info.le_trans g5 k4, fun n s0 => (read_tokens_sorted n s0).1⟩

/-- The positions of the two tokens of the source `a`, newline, ` b #`, where the third call
of `read_next` throws. -/
theorem position_monotone_witness :
    read_next (InputStream.create "a\n b #".toList) =
      some (.ok (some { type := .iden, value := .str [], info := { line := 0, col := 0 } })
        (InputStream.mk "a\n b #".toList 1 0 1)) ∧
    read_next (InputStream.mk "a\n b #".toList 1 0 1) =
      some (.ok (some { type := .iden, value := .str [], info := { line := 1, col := 1 } })
        (InputStream.mk "a\n b #".toList 4 1 2)) ∧
    read_next (InputStream.mk "a\n b #".toList 4 1 2) =
      some (.raise (.lexical 1 3 "Can't handle character: #".toList)
        (InputStream.mk "a\n b #".toList 5 1 3)) ∧
    Info.le { line := 0, col := 0 } { line := 1, col := 1 } = true ∧
    ∀ (n : Nat) (s0 : InputStream), positions_sorted (read_tokens n s0) = true :=
  ⟨by decide, by decide, by decide,
    position_monotone (InputStream.create "a\n b #".toList)
      (InputStream.mk "a\n b #".toList 1 0 1) (InputStream.mk "a\n b #".toList 4 1 2)
      { type := .iden, value := .str [], info := { line := 0, col := 0 } }
      { type := .iden, value := .str [], info := { line := 1, col := 1 } }
      (by decide) (by decide)⟩

/-! ## The loop of `main.js` -/

/-- Successive `read_next` calls end with the cursor at end of input. -/
theorem read_all_eof :
    ∀ (fuel : Nat) (s s1 : InputStream) (toks : List Token),
      read_all fuel s = some (.ok toks s1) → s1.peek = none := by
  intro fuel
  induction fuel with
  | zero => intro s s1 toks h; simp [read_all] at h
  | succ n ih =>
    intro s s1 toks h
    rw [read_all] at h
    cases hr : read_next s with
    | none => simp [hr] at h
    | some r =>
      rcases r with ⟨_ | t, s2⟩ | ⟨e, s2⟩
      · simp only [hr, Option.some.injEq, Outcome.ok.injEq] at h
        rw [← h.2]
        exact read_next_fuel_null_eof _ _ _ hr
      · simp only [hr] at h
        cases hra : read_all n s2 with
        | none => simp [hra] at h
        | some ra =>
          rcases ra with ⟨toks2, s3⟩ | ⟨e, s3⟩
          · simp only [hra, Option.some.injEq, Outcome.ok.injEq] at h
            rw [← h.2]
            exact ih _ _ _ hra
          · simp [hra] at h
      · simp [hr] at h

/-- With one unit of fuel per character left, and one more, successive `read_next` calls
reach a `null` or an error. -/
theorem read_all_ne_none :
    ∀ (fuel : Nat) (s : InputStream), s.input.length - s.pos < fuel →
      read_all fuel s ≠ none := by
  intro fuel
  induction fuel with
  | zero => intro s h; omega
  | succ n ih =>
    intro s h
    rw [read_all]
    cases hr : read_next s with
    | none => exact absurd hr (read_next_ne_none s)
    | some r =>
      rcases r with ⟨_ | t, s2⟩ | ⟨e, s2⟩
      · simp
      · simp only
        obtain ⟨g1, g2, g3, _, _⟩ := read_next_fuel_token _ _ _ _ hr
        have := ih s2 (by rw [g1.1]; omega)
        revert this
        cases read_all n s2 with
        | none => simp
        | some ra => rcases ra with ⟨_, _⟩ | ⟨_, _⟩ <;> simp
      · simp

/-- The loop of `main.js` entered with the token `t` in the slot logs `t` and then the
tokens of the successive `read_next` calls. -/
theorem main_loop_pending :
    ∀ (fuel : Nat) (s s1 : InputStream) (t : Token) (logged : List (Option Token))
      (toks : List Token),
      read_all fuel s = some (.ok toks s1) →
      main_loop (fuel + 1) { input_stream := s, current := some t } logged =
        some (.ok () ({ input_stream := s1, current := none },
          logged ++ some t :: toks.map some)) := by
  intro fuel
  induction fuel with
  | zero => intro s s1 t logged toks h; simp [read_all] at h
  | succ n ih =>
    intro s s1 t logged toks h
    rw [read_all] at h
    rw [main_loop]
    simp only [TokenStream.eof, TokenStream.peek, Option.isNone_some, TokenStream.next]
    cases hr : read_next s with
    | none => simp [hr] at h
    | some r =>
      rcases r with ⟨_ | t2, s2⟩ | ⟨e, s2⟩
      · simp only [hr, Option.some.injEq, Outcome.ok.injEq] at h
        obtain ⟨h1, h2⟩ := h
        subst h1 h2
        have heof := read_next_fuel_null_eof _ _ _ hr
        simp only
        rw [main_loop]
        simp [TokenStream.eof, TokenStream.peek, read_next_at_eof _ heof]
      · simp only [hr] at h
        cases hra : read_all n s2 with
        | none => simp [hra] at h
        | some ra =>
          rcases ra with ⟨toks2, s3⟩ | ⟨e, s3⟩
          · simp only [hra, Option.some.injEq, Outcome.ok.injEq] at h
            obtain ⟨h1, h2⟩ := h
            subst h1 h2
            simp only
            rw [ih s2 s3 t2 (logged ++ [some t]) toks2 hra]
            simp
          · simp [hra] at h
      · simp [hr] at h

/-- The loop of `main.js` on a fresh token stream logs the tokens of the successive
`read_next` calls. -/
theorem main_loop_fresh (fuel : Nat) (s s1 : InputStream) (toks : List Token)
    (h : read_all fuel s = some (.ok toks s1)) :
    main_loop fuel (TokenStream.create s) [] =
      some (.ok () ({ input_stream := s1, current := none }, toks.map some)) := by
  cases fuel with
  | zero => simp [read_all] at h
  | succ n =>
    rw [read_all] at h
    rw [main_loop]
    simp only [TokenStream.eof, TokenStream.peek, TokenStream.create]
    cases hr : read_next s with
    | none => simp [hr] at h
    | some r =>
      rcases r with ⟨_ | t, s2⟩ | ⟨e, s2⟩
      · simp only [hr, Option.some.injEq, Outcome.ok.injEq] at h
        obtain ⟨h1, h2⟩ := h
        subst h1 h2
        simp
      · simp only [hr] at h
        cases hra : read_all n s2 with
        | none => simp [hra] at h
        | some ra =>
          rcases ra with ⟨toks2, s3⟩ | ⟨e, s3⟩
          · simp only [hra, Option.some.injEq, Outcome.ok.injEq] at h
            obtain ⟨h1, h2⟩ := h
            subst h1 h2
            have hm := main_loop_pending n s2 s3 t [] toks2 hra
            rw [main_loop] at hm
            simp only [TokenStream.eof, TokenStream.peek, Option.isNone_some] at hm
            simp only [Option.isNone_some]
            rw [hm]
            simp
          · simp [hra] at h
      · simp [hr] at h

/-- C18: on a source where no `read_next` call throws, the loop of `main.js`,
`while(!ts.eof()) console.log(ts.next())`, on a fresh token stream terminates, and what it
logs is exactly the list of tokens that successive `read_next` calls return from the start
of the source up to the first `null`, in order; the cursor is then at end of input. -/
theorem main_loop_emits_tokens (src : List Char)
    (h : ∀ (e : JsError) (s1 : InputStream),
      read_all (src.length + 1) (InputStream.create src) ≠ some (.raise e s1)) :
    ∃ (toks : List Token) (s1 : InputStream),
      read_all (src.length + 1) (InputStream.create src) = some (.ok toks s1) ∧
      main_loop (src.length + 1) (TokenStream.create (InputStream.create src)) [] =
        some (.ok () ({ input_stream := s1, current := none }, toks.map some)) ∧
      s1.eof = true := by
  have hne := read_all_ne_none (src.length + 1) (InputStream.create src)
    (by simp [InputStream.create])
  cases hr : read_all (src.length + 1) (InputStream.create src) with
  | none => exact absurd hr hne
  | some r =>
    rcases r with ⟨toks, s1⟩ | ⟨e, s1⟩
    · refine ⟨toks, s1, rfl, main_loop_fresh _ _ _ _ hr, ?_⟩
      simp [InputStream.eof, read_all_eof _ _ _ _ hr]
    · exact absurd hr (h e s1)

/-- The loop of `main.js` on the source `a + 1`. -/
theorem main_loop_emits_tokens_witness :
    (∀ (e : JsError) (s1 : InputStream),
      read_all ("a + 1".toList.length + 1) (InputStream.create "a + 1".toList)
        ≠ some (.raise e s1)) ∧
    ∃ (toks : List Token) (s1 : InputStream),
      read_all ("a + 1".toList.length + 1) (InputStream.create "a + 1".toList)
        = some (.ok toks s1) ∧
      main_loop ("a + 1".toList.length + 1)
          (TokenStream.create (InputStream.create "a + 1".toList)) [] =
        some (.ok () ({ input_stream := s1, current := none }, toks.map some)) ∧
      s1.eof = true :=
  have hok : read_all ("a + 1".toList.length + 1) (InputStream.create "a + 1".toList) =
      some (.ok
        [{ type := .iden, value := .str [], info := { line := 0, col := 0 } },
         { type := .op, value := .str "+".toList, info := { line := 0, col := 2 } },
         { type := .num, value := .num ⟨1, 0⟩, info := { line := 0, col := 4 } }]
        (InputStream.mk "a + 1".toList 5 0 5)) := by decide
  have hno : ∀ (e : JsError) (s1 : InputStream),
      read_all ("a + 1".toList.length + 1) (InputStream.create "a + 1".toList)
        ≠ some (.raise e s1) := by
    intro e s1 h
    rw [hok] at h
    cases h
  ⟨hno, main_loop_emits_tokens "a + 1".toList hno⟩

/-! ## Termination -/

/-- Fuel beyond one unit per character left does not change the string loop: the loop has
ended at end of input at the latest. -/
theorem read_escaped_loop_fuel_succ (end_ch : Option Char) :
    ∀ (fuel : Nat) (escaped : Bool) (str : List Char) (s : InputStream),
      s.input.length - s.pos ≤ fuel →
      read_escaped_loop end_ch (fuel + 1) escaped str s
        = read_escaped_loop end_ch fuel escaped str s := by
  intro fuel
  induction fuel with
  | zero =>
    intro escaped str s h
    have hp : s.peek = none := by
      simp only [InputStream.peek]
      exact List.getElem?_eq_none (by omega)
    simp [read_escaped_loop, InputStream.eof, hp]
  | succ n ih =>
    intro escaped str s h
    rw [read_escaped_loop]
    conv_rhs => rw [read_escaped_loop]
    have hrec : ∀ (e : Bool) (t : List Char),
        read_escaped_loop end_ch (n + 1) e t s.next.2 = read_escaped_loop end_ch n e t s.next.2 := by
      intro e t
      apply ih
      rw [InputStream.next_input, InputStream.next_pos]
      omega
    simp only [hrec]

theorem read_escaped_loop_fuel (end_ch : Option Char) (escaped : Bool) (str : List Char)
    (s : InputStream) (extra : Nat) :
    read_escaped_loop end_ch (s.input.length - s.pos + extra) escaped str s
      = read_escaped_loop end_ch (s.input.length - s.pos) escaped str s := by
  induction extra with
  | zero => rfl
  | succ k ih =>
    rw [← ih, ← Nat.add_assoc]
    exact read_escaped_loop_fuel_succ end_ch _ escaped str s (by omega)

theorem read_next_fuel_extra (s : InputStream) (extra : Nat) :
    read_next_fuel (s.input.length + 1 + extra) s = read_next s := by
  induction extra with
  | zero => rfl
  | succ k ih =>
    obtain ⟨r, hr⟩ := Option.ne_none_iff_exists'.1 (read_next_ne_none s)
    rw [hr] at ih ⊢
    rw [← Nat.add_assoc]
    exact read_next_fuel_mono _ _ _ ih

/-- C20: on every cursor `read_next` terminates: it returns a token or `null`, or throws,
and more fuel than one unit per character of the input gives the same outcome.  The loop
of `read_while` and the string loop have ended after one iteration per character left at
the latest, and a comment, after which `read_next` calls itself, moves the cursor on by two
characters at least within the same input. -/
theorem read_next_terminates (s : InputStream) :
    (∃ r : Outcome InputStream (Option Token), read_next s = some r) ∧
    (∀ extra : Nat, read_next_fuel (s.input.length + 1 + extra) s = read_next s) ∧
    (∀ (σ : Type) (cond_func : σ → InputStream → Char → Bool × σ) (st : σ)
        (buffer : List Char) (extra : Nat),
      read_while_loop cond_func (s.input.length - s.pos + extra) st s buffer
        = read_while_loop cond_func (s.input.length - s.pos) st s buffer) ∧
    (∀ (end_ch : Option Char) (escaped : Bool) (str : List Char) (extra : Nat),
      read_escaped_loop end_ch (s.input.length - s.pos + extra) escaped str s
        = read_escaped_loop end_ch (s.input.length - s.pos) escaped str s) ∧
    (skip_comment s).input = s.input ∧ s.pos + 2 ≤ (skip_comment s).pos :=
  ⟨Option.ne_none_iff_exists'.1 (read_next_ne_none s), read_next_fuel_extra s,
    fun _ cond_func st buffer extra => read_while_loop_fuel cond_func st s buffer extra,
    fun end_ch escaped str extra => read_escaped_loop_fuel end_ch escaped str s extra,
    (skip_comment_input s).1, (skip_comment_input s).2⟩

/-- C16: on the source `/*/ a */ #`, whose first character after the block comment
`/*/ a */` and a space is `#`, `read_next` throws nothing and returns the token of `a`:
`skip_block_comment` takes the `*` of the opening `/*` with the `/` after it for the end of
the comment.  The error of `#` comes two calls later, at `[0:9]`.  On the source `#` alone
the error is thrown at once and its text is `[0:0]Can't handle character: #`. -/
theorem unrecognized_after_block_comment :
    read_next (InputStream.create "/*/ a */ #".toList) =
      some (.ok (some { type := .iden, value := .str [], info := { line := 0, col := 0 } })
        (InputStream.mk "/*/ a */ #".toList 5 0 5)) ∧
    read_all 4 (InputStream.create "/*/ a */ #".toList) =
      some (.raise (.lexical 0 9 "Can't handle character: #".toList)
        (InputStream.mk "/*/ a */ #".toList 9 0 9)) ∧
    read_next (InputStream.create "#".toList) =
      some (.raise (.lexical 0 0 "Can't handle character: #".toList)
        (InputStream.mk "#".toList 0 0 0)) ∧
    JsError.text (.lexical 0 0 "Can't handle character: #".toList) =
      some "[0:0]Can't handle character: #".toList := by
  decide

/-- C19: on the source `/*/ x */y` the comment skipper stops after the first three
characters, `/*/`, not after the closing `*/`: successive `read_next` calls return the
tokens of `x`, of `*/` and of `y`, while on the source `y` they return the token of `y`
alone.  On the source `/* x */y`, whose comment body does not begin with `/`, they return
the token of `y` alone. -/
theorem block_comment_slash_body :
    skip_comment (InputStream.create "/*/ x */y".toList) =
      InputStream.mk "/*/ x */y".toList 3 0 3 ∧
    read_all 4 (InputStream.create "/*/ x */y".toList) =
      some (.ok
        [{ type := .iden, value := .str [], info := { line := 0, col := 0 } },
         { type := .op, value := .str "*/".toList, info := { line := 0, col := 6 } },
         { type := .iden, value := .str [], info := { line := 0, col := 8 } }]
        (InputStream.mk "/*/ x */y".toList 9 0 9)) ∧
    read_all 4 (InputStream.create "y".toList) =
      some (.ok [{ type := .iden, value := .str [], info := { line := 0, col := 0 } }]
        (InputStream.mk "y".toList 1 0 1)) ∧
    read_all 4 (InputStream.create "/* x */y".toList) =
      some (.ok [{ type := .iden, value := .str [], info := { line := 0, col := 0 } }]
        (InputStream.mk "/* x */y".toList 8 0 8)) := by
  decide

/-- After whitespace only, a character that none of the rules of `read_next` takes makes it
throw the error of `throwerr` at the line and column of that character, with the character
in the message. -/
theorem unrecognized_after_whitespace (ws rest : List Char) (c : Char) (hws : blank ws = true)
    (hnw : is_whitespace c = false) (hop : is_op_char c = false)
    (hstr : is_string_start c = false) (hid : is_id_start c = false)
    (hpunc : is_punc c = false) (hnum : is_number_start c = false) :
    read_next (InputStream.create (ws ++ c :: rest)) =
      some (.raise (.lexical (line_of ws) (col_of ws) ("Can't handle character: ".toList ++ [c]))
        (InputStream.mk (ws ++ c :: rest) ws.length (line_of ws) (col_of ws))) ∧
    JsError.text (.lexical (line_of ws) (col_of ws) ("Can't handle character: ".toList ++ [c])) =
      some ("[".toList ++ (Nat.repr (line_of ws)).toList ++ ":".toList ++
        (Nat.repr (col_of ws)).toList ++ "]Can't handle character: ".toList ++ [c]) := by
  obtain ⟨hw, _⟩ := after_whitespace ws (c :: rest) hws (by
    intro d hd
    simp only [List.head?_cons, Option.some.injEq] at hd
    subst hd; exact hnw)
  have hp : InputStream.peek (InputStream.mk (ws ++ c :: rest) ws.length (line_of ws) (col_of ws))
      = some c := by
    rw [InputStream.peek_eq_head]; simp
  have hne : c ≠ '/' := by
    rintro rfl
    revert hop; decide
  refine ⟨?_, ?_⟩
  · rw [read_next_unrecognized _ _ c hw hp (not_comment_start_of_ne _ _ hne) hop hstr hid hpunc
      hnum]
    rfl
  · simp [JsError.text]

/-! ## Comments -/

theorem InputStream.lookup_next_eq (s : InputStream) :
    s.lookup_next = (s.input.drop (s.pos + 1)).head? := by
  simp [InputStream.lookup_next, List.head?_drop]

/-- The function `skip_line_comment` applied after the first `/` of a line comment closed by
its newline. -/
theorem skip_comment_line (s : InputStream) (body rest : List Char)
    (hdrop : s.input.drop s.pos = '/' :: '/' :: (body ++ '\n' :: rest)) (hbody : '\n' ∉ body) :
    skip_comment s = s.advance (body.length + 3) := by
  obtain ⟨_, _, hdrop1⟩ := InputStream.eof_of_drop_cons hdrop
  have hp1 : s.next.2.peek = some '/' := by rw [InputStream.peek_eq_head, hdrop1]; rfl
  have hrw := read_while_char_cond is_not_next_line ('/' :: body) ('\n' :: rest) s.next.2
    (by rw [hdrop1]; rfl)
    (by
      intro c hc
      rcases List.mem_cons.1 hc with rfl | hc
      · decide
      · have : c ≠ '\n' := fun h => hbody (h ▸ hc)
        simpa [is_not_next_line] using this)
    (by intro c hc; simp at hc; subst hc; decide)
  simp only [skip_comment, hp1, if_true, skip_line_comment, hrw, InputStream.next_advance]
  simp [InputStream.advance, Function.iterate_succ_apply']

/-- The loop of `read_while` with the callback of `skip_block_comment`, on a text `a` in
which no `*` is followed by `/`, before the closing `*/`. -/
theorem read_while_loop_block :
    ∀ (a rest : List Char) (s : InputStream) (buffer : List Char) (fuel : Nat),
      s.input.drop s.pos = a ++ '*' :: '/' :: rest → no_close (a ++ ['*']) = true →
      a.length ≤ fuel →
      (read_while_loop (fun (st : Unit) cur ch => (is_not_matching cur ch, st)) fuel () s
        buffer).2.2 = s.advance a.length := by
  intro a
  induction a with
  | nil =>
    intro rest s buffer fuel hdrop _ _
    have hp : s.peek = some '*' := by rw [InputStream.peek_eq_head, hdrop]; rfl
    have hl : s.lookup_next = some '/' := by
      rw [InputStream.lookup_next_eq, drop_succ_of_drop_cons hdrop]; rfl
    cases fuel <;> simp [read_while_loop, hp, is_not_matching, hl, InputStream.advance]
  | cons c a ih =>
    intro rest s buffer fuel hdrop hnc hlen
    cases fuel with
    | zero => simp at hlen
    | succ n =>
      have hp : s.peek = some c := by rw [InputStream.peek_eq_head, hdrop]; rfl
      obtain ⟨_, _, hdrop1⟩ := InputStream.eof_of_drop_cons hdrop
      have hl : s.lookup_next = (a ++ '*' :: '/' :: rest).head? := by
        rw [InputStream.lookup_next_eq, drop_succ_of_drop_cons hdrop]
        rfl
      have hnm : is_not_matching s c = true ∧ no_close (a ++ ['*']) = true := by
        cases a with
        | nil =>
          simp only [List.nil_append, List.head?_cons] at hl
          simp [is_not_matching, hl, no_close]
        | cons d a1 =>
          simp only [List.cons_append, List.head?_cons] at hl
          simp only [List.cons_append, no_close, Bool.and_eq_true, Bool.not_eq_true',
            Bool.and_eq_false_iff, beq_eq_false_iff_ne] at hnc
          refine ⟨?_, hnc.2⟩
          simp only [is_not_matching, hl, Bool.not_eq_true', Bool.and_eq_false_iff,
            beq_eq_false_iff_ne]
          rcases hnc.1 with h | h
          · exact Or.inl h
          · exact Or.inr (by simpa using h)
      rw [read_while_loop]
      simp only [hp, hnm.1]
      rw [ih rest s.next.2 _ n hdrop1 hnm.2 (by simpa using hlen), InputStream.next_advance]
      rfl

/-- The function `skip_comment` on a block comment whose body has no `*/` and does not begin
with `/`: it consumes the comment, through its closing `*/`. -/
theorem skip_comment_block (s : InputStream) (body rest : List Char)
    (hdrop : s.input.drop s.pos = '/' :: '*' :: (body ++ '*' :: '/' :: rest))
    (hbody : no_close body = true) (hhead : body.head? ≠ some '/') :
    skip_comment s = s.advance (body.length + 4) := by
  obtain ⟨_, _, hdrop1⟩ := InputStream.eof_of_drop_cons hdrop
  have hp1 : s.next.2.peek = some '*' := by rw [InputStream.peek_eq_head, hdrop1]; rfl
  have hnc : no_close (('*' :: body) ++ ['*']) = true := by
    have hb : ∀ l : List Char, no_close l = true → no_close (l ++ ['*']) = true := by
      intro l
      induction l with
      | nil => intro _; rfl
      | cons c l ih =>
        intro h
        cases l with
        | nil => simp [no_close]
        | cons d l1 =>
          simp only [no_close, Bool.and_eq_true] at h
          simp only [List.cons_append, no_close, Bool.and_eq_true]
          exact ⟨h.1, ih h.2⟩
    cases body with
    | nil => simp [no_close]
    | cons d body1 =>
      have hd : d ≠ '/' := by simpa using hhead
      have := hb (d :: body1) hbody
      simp only [List.cons_append, no_close, Bool.and_eq_true] at this ⊢
      exact ⟨by simp [hd], this⟩
  have hlen := drop_length_le hdrop1
  have hrw := read_while_loop_block ('*' :: body) rest s.next.2 []
    (s.next.2.input.length - s.next.2.pos) (by rw [hdrop1]; rfl) hnc
    (by simp at hlen ⊢; omega)
  simp only [skip_comment, hp1, Option.some.injEq, skip_block_comment, read_while, hrw,
    InputStream.next_advance]
  rw [if_neg (by decide)]
  simp [InputStream.advance, Function.iterate_succ_apply']

theorem read_while_loop_buffer {σ : Type} (cond_func : σ → InputStream → Char → Bool × σ) :
    ∀ (fuel : Nat) (st : σ) (s : InputStream) (b1 b2 : List Char),
      (read_while_loop cond_func fuel st s b1).2 = (read_while_loop cond_func fuel st s b2).2 := by
  intro fuel
  induction fuel with
  | zero => intro st s b1 b2; rfl
  | succ n ih =>
    intro st s b1 b2
    rw [read_while_loop, read_while_loop]
    cases hp : s.peek with
    | none => rfl
    | some ch =>
      simp only
      rcases hc : cond_func st s ch with ⟨b, st1⟩
      cases b with
      | false => rfl
      | true => exact ih _ _ _ _

/-- A whitespace character under the cursor: `read_next` gives what it gives one character
further. -/
theorem read_next_skip_whitespace (s : InputStream) (w : Char) (hp : s.peek = some w)
    (hw : is_whitespace w = true) : read_next s = read_next s.next.2 := by
  have h : (read_while (char_cond is_whitespace) () s).2.2
      = (read_while (char_cond is_whitespace) () s.next.2).2.2 := by
    rw [read_while, read_while_loop_eq]
    simp only [hp, char_cond, hw]
    rw [read_while]
    rw [read_while_loop_buffer (char_cond is_whitespace) _ () s.next.2
      ([] ++ s.next.1.toList) []]
  rw [read_next_eq s, read_next_eq s.next.2, h]

/-- After a comment, an error thrown by the nested call of `read_next` is thrown by the
call that skipped the comment. -/
theorem read_next_comment_raise (s s1 s2 : InputStream) (ch : Char) (e : JsError)
    (hw : (read_while (char_cond is_whitespace) () s).2.2 = s1) (hp : s1.peek = some ch)
    (hc : is_comment_start s1 ch = true)
    (hr : read_next (skip_comment s1) = some (.raise e s2)) :
    read_next s = some (.raise e s2) := by
  rw [read_next_eq]
  simp only [hw, hp, hc, if_true, hr]

theorem is_comment_start_of_drop (s : InputStream) (d : Char) (rest : List Char)
    (hdrop : s.input.drop s.pos = '/' :: d :: rest) (hd : d = '/' ∨ d = '*') :
    is_comment_start s '/' = true := by
  have hl : s.lookup_next = some d := by
    rw [InputStream.lookup_next_eq, drop_succ_of_drop_cons hdrop]; rfl
  rcases hd with rfl | rfl <;> simp [is_comment_start, hl]

/-- After whitespace and comments, a character that none of the rules of `read_next` takes
makes it throw the error of `throwerr` at the position of that character. -/
theorem unrecognized_after_leading (c : Char) (rest : List Char)
    (hnw : is_whitespace c = false) (hop : is_op_char c = false)
    (hstr : is_string_start c = false) (hid : is_id_start c = false)
    (hpunc : is_punc c = false) (hnum : is_number_start c = false) :
    ∀ (pre : List Char), Leading pre → ∀ (s : InputStream),
      s.input.drop s.pos = pre ++ c :: rest →
      read_next s =
        some (.raise (.lexical (s.advance pre.length).line (s.advance pre.length).col
          ("Can't handle character: ".toList ++ [c])) (s.advance pre.length)) := by
  have hne : c ≠ '/' := by
    rintro rfl
    revert hop; decide
  intro pre hpre
  induction hpre with
  | nil =>
    intro s hdrop
    have hw := read_while_whitespace_none s c rest hdrop hnw
    have hp : s.peek = some c := by rw [InputStream.peek_eq_head, hdrop]; rfl
    rw [read_next_unrecognized s s c hw hp (not_comment_start_of_ne _ _ hne) hop hstr hid hpunc
      hnum]
    rfl
  | blank w pre1 hw _ ih =>
    intro s hdrop
    have hp : s.peek = some w := by rw [InputStream.peek_eq_head, hdrop]; rfl
    obtain ⟨_, _, hdrop1⟩ := InputStream.eof_of_drop_cons hdrop
    rw [read_next_skip_whitespace s w hp hw, ih s.next.2 hdrop1, InputStream.next_advance]
    rfl
  | line body pre1 hbody _ ih =>
    intro s hdrop
    have hdrop' : s.input.drop s.pos = '/' :: '/' :: (body ++ '\n' :: (pre1 ++ c :: rest)) := by
      rw [hdrop]; simp
    have hw := read_while_whitespace_none s '/' _ hdrop' (by decide)
    have hp : s.peek = some '/' := by rw [InputStream.peek_eq_head, hdrop']; rfl
    have hsk := skip_comment_line s body (pre1 ++ c :: rest) hdrop' hbody
    have hdrop2 : (s.advance (body.length + 3)).input.drop (s.advance (body.length + 3)).pos
        = pre1 ++ c :: rest := by
      rw [InputStream.advance_drop, ← List.drop_drop, hdrop']
      simp [List.drop_left']
    have hr := ih (s.advance (body.length + 3)) hdrop2
    rw [InputStream.advance_add] at hr
    rw [← hsk] at hr
    rw [read_next_comment_raise s s _ '/' _ hw hp
      (is_comment_start_of_drop s '/' _ hdrop' (Or.inl rfl)) hr]
    simp [Nat.add_comm, Nat.add_left_comm]
  | block body pre1 hbody hhead _ ih =>
    intro s hdrop
    have hdrop' : s.input.drop s.pos
        = '/' :: '*' :: (body ++ '*' :: '/' :: (pre1 ++ c :: rest)) := by
      rw [hdrop]; simp
    have hw := read_while_whitespace_none s '/' _ hdrop' (by decide)
    have hp : s.peek = some '/' := by rw [InputStream.peek_eq_head, hdrop']; rfl
    have hsk := skip_comment_block s body (pre1 ++ c :: rest) hdrop' hbody hhead
    have hdrop2 : (s.advance (body.length + 4)).input.drop (s.advance (body.length + 4)).pos
        = pre1 ++ c :: rest := by
      rw [InputStream.advance_drop, ← List.drop_drop, hdrop']
      simp [List.drop_left']
    have hr := ih (s.advance (body.length + 4)) hdrop2
    rw [InputStream.advance_add] at hr
    rw [← hsk] at hr
    rw [read_next_comment_raise s s _ '/' _ hw hp
      (is_comment_start_of_drop s '*' _ hdrop' (Or.inr rfl)) hr]
    simp [Nat.add_comm, Nat.add_left_comm]

/-- On a source that begins with whitespace and comments `pre` and then a character that
none of the rules takes, `read_next` throws the error whose line and column are those of
that character and whose message ends with it. -/
theorem unrecognized_after_comments (pre rest : List Char) (c : Char) (hpre : Leading pre)
    (hnw : is_whitespace c = false) (hop : is_op_char c = false)
    (hstr : is_string_start c = false) (hid : is_id_start c = false)
    (hpunc : is_punc c = false) (hnum : is_number_start c = false) :
    read_next (InputStream.create (pre ++ c :: rest)) =
      some (.raise (.lexical (line_of pre) (col_of pre) ("Can't handle character: ".toList ++ [c]))
        (InputStream.mk (pre ++ c :: rest) pre.length (line_of pre) (col_of pre))) := by
  have h := unrecognized_after_leading c rest hnw hop hstr hid hpunc hnum pre hpre
    (InputStream.create (pre ++ c :: rest)) rfl
  rw [advance_create_append] at h
  exact h

end Lex
